import Mathlib

/-!
Shallow embedding of the B-tree container from `src/btree.h` and
`src/btree_iterator.h`, specialised to `T = Int` (the element type is a
template parameter in the source; `Int` carries the required `<` and `==`).

Modelling conventions:
* `Node` mirrors `btree<T>::Node` (btree.h lines 310-327): a sorted element
  vector and a vector of owning child slots, each possibly null.  The raw
  `parent` back-pointer is represented implicitly: a node is identified by
  its path of child indices from the root, listed deepest-level first, so
  `node->parent` is the tail of the path.  Within a single tree this is a
  faithful rendering of pointer identity: distinct live nodes have distinct
  paths and equal paths denote the same node object.
* `BTreeIterator` mirrors the iterator state (btree_iterator.h lines
  146-149): the `node` pointer becomes an optional path (none = nullptr),
  `indices` is the `std::stack` with the list head as the stack top, and
  `endParent` is an optional path.
* C++ loops whose termination depends on the heap shape take an explicit
  `fuel : Nat`; `none` is returned when the fuel runs out or when the C++
  code would perform undefined behaviour (null dereference, `top()` on an
  empty stack, out-of-range unchecked indexing).  All lemmas either hold
  for every successful run or are supplied with sufficient fuel.
* `size_type` is `unsigned int`; indices and capacities are modelled as
  `Nat`.  The only place the source computes `elems.size() - 1` where the
  unsigned subtraction could wrap is on an empty node; nodes reachable by
  `insert` are never empty (proved below), and `Nat` truncated subtraction
  is used there.
-/

namespace BTreeVer

inductive Node where
  | mk (elems : List Int) (children : List (Option Node))

def Node.elems : Node → List Int
  | ⟨es, _⟩ => es

def Node.children : Node → List (Option Node)
  | ⟨_, cs⟩ => cs

@[simp] theorem Node.elems_mk (es : List Int) (cs : List (Option Node)) :
    (Node.mk es cs).elems = es := rfl

@[simp] theorem Node.children_mk (es : List Int) (cs : List (Option Node)) :
    (Node.mk es cs).children = cs := rfl

/-- Iterator state, mirroring `BTreeIterator<T>` (btree_iterator.h 146-149).
Paths are deepest-first lists of child indices; `none` is a null pointer. -/
structure BTreeIterator where
  node : Option (List Nat)
  indices : List Nat
  endParent : Option (List Nat)
deriving DecidableEq, Repr

/-- The tree object: owned root (null when empty) and the capacity bound
(btree.h lines 329-330). -/
structure BTree where
  head : Option Node
  maxNodeElems : Nat

/-- Resolve a deepest-first path against a root node (models following
child pointers from the root; `none` = no such node / null slot). -/
def nodeAtR (root : Node) : List Nat → Option Node
  | [] => some root
  | i :: p =>
    match nodeAtR root p with
    | none => none
    | some n => (n.children[i]?).bind id

/-- Resolve a path against an optional root. -/
def nodeAtO : Option Node → List Nat → Option Node
  | none, _ => none
  | some r, p => nodeAtR r p

/-- The element-scan of `find_` (btree.h 369-385): starting at slot 0,
return `.inl i` to descend into child `i` (when the target is less than the
slot-`i` element, or `i` passed the last element), or `.inr i` when slot `i`
matches. -/
def scanElems (elem : Int) : List Int → Nat → Sum Nat Nat
  | [], i => Sum.inl i
  | e :: es, i =>
    if elem < e then Sum.inl i
    else if e = elem then Sum.inr i
    else scanElems elem es (i + 1)

/-- The descent of `find_` (btree.h 365-388).  Result: `some (some it)`
found, `some none` not found (caller returns the end iterator), `none`
fuel exhausted.  The accumulated path doubles as the pushed index stack,
exactly as the C++ code pushes the descent index at each level. -/
def findAux (elem : Int) : Nat → Node → List Nat → Option (Option BTreeIterator)
  | 0, _, _ => none
  | fuel + 1, n, p =>
    match scanElems elem n.elems 0 with
    | Sum.inr i => some (some ⟨some p, i :: p, none⟩)
    | Sum.inl i =>
      match n.children[i]? with
      | some (some c) => findAux elem fuel c (i :: p)
      | _ => some none

/-- The loop of `end_` (btree.h 356-359): while the node has
`elems.size() == children.size() - 1` (children nonempty), descend into the
rightmost child slot, pushing `elems.size()`.  A null rightmost slot makes
the C++ code dereference nullptr on the next iteration: `none`. -/
def endDescend : Nat → Node → List Nat → List Nat → Option (Node × List Nat × List Nat)
  | 0, _, _, _ => none
  | fuel + 1, n, p, idxs =>
    if n.children.length = n.elems.length + 1 then
      match n.children[n.elems.length]? with
      | some (some c) => endDescend fuel c (n.elems.length :: p) (n.elems.length :: idxs)
      | _ => none
    else some (n, p, idxs)

/-- `btree::end_` (btree.h 347-363).  Returns the `iterator(indices, node)`
value: null node, the pushed indices with `elems.size() - 1` on top, and
the final node as `endParent`. -/
def end_ (fuel : Nat) (head : Option Node) : Option BTreeIterator :=
  match head with
  | none => some ⟨none, [], none⟩
  | some root =>
    (endDescend fuel root [] []).map fun r =>
      ⟨none, (r.1.elems.length - 1) :: r.2.2, some r.2.1⟩

/-- `btree::find_` (btree.h 365-388). -/
def find_ (fuel : Nat) (elem : Int) (head : Option Node) : Option BTreeIterator :=
  match head with
  | none => end_ fuel none
  | some root =>
    match findAux elem fuel root [] with
    | none => none
    | some none => end_ fuel (some root)
    | some (some it) => some it

/-- The loop of `begin_` (btree.h 339-342): descend into child 0 while it
is present, pushing 0 to the index stack at each step. -/
def beginDescend : Nat → Node → List Nat → List Nat → Option (List Nat × List Nat)
  | 0, _, _, _ => none
  | fuel + 1, n, q, idxs =>
    match n.children.head? with
    | some (some c) => beginDescend fuel c (0 :: q) (0 :: idxs)
    | _ => some (q, idxs)

/-- `btree::begin_` (btree.h 332-345). -/
def begin_ (fuel : Nat) (head : Option Node) : Option BTreeIterator :=
  match head with
  | none => some ⟨none, [], none⟩
  | some root =>
    (beginDescend fuel root [] []).map fun r => ⟨some r.1, 0 :: r.2, none⟩

/-- The index scan of `insert` (btree.h 264-276): the first slot whose
element exceeds the new element (no equality test — insert runs only after
`find` failed). -/
def insScan (elem : Int) : List Int → Nat → Nat
  | [], i => i
  | e :: es, i => if elem < e then i else insScan elem es (i + 1)

/-- `children.resize(i + 1)` when the descent index is past the end
(btree.h 289-292): pad with null slots up to index `i`. -/
def padChildren (cs : List (Option Node)) (i : Nat) : List (Option Node) :=
  if cs.length ≤ i then cs ++ List.replicate (i + 1 - cs.length) none else cs

/-- The descent loop of `insert` (btree.h 262-298).  At a non-saturated
node, insert the element at its sorted slot (and a null child slot at the
same position when the child iterator has not reached `children.end()`,
i.e. when `i < children.size()`); at a saturated node, `resize` the child
vector to `i + 1` when needed, materialise a missing child, and descend.
Returns the new subtree plus the root-first stack of pushed indices. -/
def insertLoop (maxE : Nat) (elem : Int) : Nat → Node → Option (Node × List Nat)
  | 0, _ => none
  | fuel + 1, n =>
    let i := insScan elem n.elems 0
    if n.elems.length < maxE then
      let elems2 := n.elems.insertIdx i elem
      let children2 :=
        if i < n.children.length then n.children.insertIdx i none else n.children
      some (⟨elems2, children2⟩, [i])
    else
      let cs := padChildren n.children i
      let child :=
        match cs[i]? with
        | some (some c) => c
        | _ => ⟨[], []⟩
      match insertLoop maxE elem fuel child with
      | none => none
      | some (c2, idxs) => some (⟨n.elems, cs.set i (some c2)⟩, i :: idxs)

/-- `btree::insert` (btree.h 248-299): run `find`; if the result differs
from `end()`, return it with `false`; otherwise create the root if absent
and run the descent loop, producing the iterator from the pushed indices. -/
def insert (fuel : Nat) (t : BTree) (elem : Int) : Option (BTree × BTreeIterator × Bool) :=
  match find_ fuel elem t.head with
  | none => none
  | some it =>
    match end_ fuel t.head with
    | none => none
    | some e =>
      if it ≠ e then some (t, it, false)
      else
        let root := t.head.getD ⟨[], []⟩
        match insertLoop t.maxNodeElems elem fuel root with
        | none => none
        | some (root2, idxs) =>
          let l := idxs.reverse
          some (⟨some root2, t.maxNodeElems⟩, ⟨some l.tail, l, none⟩, true)

/-- `btree(size_type maxNodeElems_ = 40)` (btree.h 55): stores the capacity
with no validation whatsoever. -/
def btreeNew (maxE : Nat) : BTree := ⟨none, maxE⟩

/-- A tree built from an empty tree by successive `insert` calls, leftmost
element first. -/
def buildTree (maxE fuel : Nat) (xs : List Int) : Option BTree :=
  xs.foldlM (fun t e => (insert fuel t e).map Prod.fst) (btreeNew maxE)

/-- The left-descend loop of `operator++` (btree_iterator.h 53-56): while
child 0 is present, enter it and push 0. -/
def leftDescend : Nat → Node → List Nat → List Nat → Option (List Nat × List Nat)
  | 0, _, _, _ => none
  | fuel + 1, n, q, idxs =>
    match n.children.head? with
    | some (some c) => leftDescend fuel c (0 :: q) (0 :: idxs)
    | _ => some (q, idxs)

/-- The upward loop of `operator++` (btree_iterator.h 61-74): while the top
index equals the current node's element count, pop and retry at the parent;
when the root is exhausted, become the end cursor remembering the original
node and indices. -/
def incAscend (h : Option Node) (origN : List Nat) (origIdx : List Nat)
    (ep : Option (List Nat)) : List Nat → List Nat → Option BTreeIterator
  | _, [] => none
  | p, i :: rest =>
    match nodeAtO h p with
    | none => none
    | some n =>
      if i = n.elems.length then
        match p with
        | [] => some ⟨none, origIdx, some origN⟩
        | _ :: p2 => incAscend h origN origIdx ep p2 rest
      else some ⟨some p, i :: rest, ep⟩

/-- `BTreeIterator::operator++` (btree_iterator.h 40-77). -/
def iterInc (fuel : Nat) (h : Option Node) (it : BTreeIterator) : Option BTreeIterator :=
  match it.node with
  | none => none
  | some p =>
    match nodeAtO h p with
    | none => none
    | some n =>
      match it.indices with
      | [] => none
      | i :: rest =>
        match n.children[i + 1]? with
        | some (some c) =>
          (leftDescend fuel c ((i + 1) :: p) (0 :: (i + 1) :: rest)).map fun r =>
            ⟨some r.1, r.2, it.endParent⟩
        | _ => incAscend h p (i :: rest) it.endParent p ((i + 1) :: rest)

/-- The right-descend loop of `operator--` (btree_iterator.h 99-103): while
`children.size() == elems.size() + 1` with the rightmost child present,
enter it and push the entered child's `elems.size() - 1`. -/
def rightDescend : Nat → Node → List Nat → List Nat → Option (List Nat × List Nat)
  | 0, _, _, _ => none
  | fuel + 1, n, q, idxs =>
    if n.children.length = n.elems.length + 1 then
      match n.children[n.elems.length]? with
      | some (some c) =>
        rightDescend fuel c (n.elems.length :: q) ((c.elems.length - 1) :: idxs)
      | _ => some (q, idxs)
    else some (q, idxs)

/-- The upward loop of `operator--` (btree_iterator.h 106-112): while the
top index is 0, pop and move to the parent (moving past the root leaves a
null node, as in the source); finally decrement the top index. -/
def decAscend (ep : Option (List Nat)) : Option (List Nat) → List Nat → Option BTreeIterator
  | _, [] => none
  | nodeOpt, i :: rest =>
    if i = 0 then
      match nodeOpt with
      | none => none
      | some [] => decAscend ep none rest
      | some (_ :: p2) => decAscend ep (some p2) rest
    else some ⟨nodeOpt, (i - 1) :: rest, ep⟩

/-- `BTreeIterator::operator--` (btree_iterator.h 87-115). -/
def iterDec (fuel : Nat) (h : Option Node) (it : BTreeIterator) : Option BTreeIterator :=
  match it.node, it.endParent with
  | none, some ep => some ⟨some ep, it.indices, none⟩
  | none, none => none
  | some p, ep =>
    match nodeAtO h p, it.indices with
    | some n, i :: rest =>
      match n.children[i]? with
      | some (some c) =>
        (rightDescend fuel c (i :: p) ((c.elems.length - 1) :: i :: rest)).map fun r =>
          ⟨some r.1, r.2, ep⟩
      | _ => decAscend ep (some p) (i :: rest)
    | _, _ => none

/-- `BTreeIterator::operator*` (btree_iterator.h 31-33):
`node->elems[indices.top()]`. -/
def iterDeref (h : Option Node) (it : BTreeIterator) : Option Int :=
  match it.node with
  | none => none
  | some p =>
    match nodeAtO h p with
    | none => none
    | some n =>
      match it.indices with
      | [] => none
      | i :: _ => n.elems[i]?

/-- `BTreeIterator::operator==` (btree_iterator.h 124-126): all three
members compared (node and endParent by pointer identity, i.e. path
equality within a tree; empty-tree iterators hold only nulls). -/
def iterEq (a b : BTreeIterator) : Bool :=
  decide (a.node = b.node) && decide (a.indices = b.indices) &&
    decide (a.endParent = b.endParent)

/-- The canonical `for (it = begin; it != end; ++it)` walk, collecting the
dereferenced elements; `fuel` bounds the number of steps. -/
def walkFrom (h : Option Node) (endIt : BTreeIterator) : Nat → BTreeIterator → Option (List Int)
  | 0, it => if it = endIt then some [] else none
  | fuel + 1, it =>
    if it = endIt then some []
    else
      match iterDeref h it, iterInc fuel h it with
      | some v, some it2 =>
        match walkFrom h endIt fuel it2 with
        | some rest => some (v :: rest)
        | none => none
      | _, _ => none

/-- The child-copy recursion of `Node::Node(const Node&, Node*)`
(btree.h 313-322): null slots stay null, present children are deep-copied
(the re-linking of `parent` pointers to the new copies is implicit in the
path representation). -/
def copyChildren : Nat → List (Option Node) → Option (List (Option Node))
  | 0, _ => none
  | _ + 1, [] => some []
  | fuel + 1, none :: cs => (copyChildren fuel cs).map (none :: ·)
  | fuel + 1, some ⟨es, gcs⟩ :: cs =>
    match copyChildren fuel gcs, copyChildren fuel cs with
    | some gcs2, some r => some (some ⟨es, gcs2⟩ :: r)
    | _, _ => none

/-- `Node::Node(const Node& original, Node* parent_)` (btree.h 313-322). -/
def copyNode (fuel : Nat) : Node → Option Node
  | ⟨es, cs⟩ => (copyChildren fuel cs).map fun cs2 => ⟨es, cs2⟩

/-- `btree(const btree& original)` (btree.h 72-75): unconditionally
dereferences `*original.head`, which is a null-pointer dereference when the
original tree is empty — modelled as `none`. -/
def btreeCopy (fuel : Nat) (t : BTree) : Option BTree :=
  match t.head with
  | none => none
  | some r => (copyNode fuel r).map fun r2 => ⟨some r2, t.maxNodeElems⟩

/-- `swap(btree&, btree&)` (btree.h 390-394). -/
def btreeSwap (a b : BTree) : BTree × BTree :=
  (⟨b.head, b.maxNodeElems⟩, ⟨a.head, a.maxNodeElems⟩)

/-- `btree(btree&& original)` (btree.h 83-85): member-init copies the
capacity, the new head starts null, then `swap(original, *this)`.
Returns (constructed tree, source after the move). -/
def btreeMoveCtor (original : BTree) : BTree × BTree :=
  let this0 : BTree := ⟨none, original.maxNodeElems⟩
  let s := btreeSwap original this0
  (s.2, s.1)

/-- `operator=(btree&& rhs)` (btree.h 107-111): assign the capacity, then
`swap(rhs, *this)` — so the old target contents end up in `rhs`.
Arguments (target, source); returns (target after, source after). -/
def btreeMoveAssign (this0 rhs : BTree) : BTree × BTree :=
  let this1 : BTree := ⟨this0.head, rhs.maxNodeElems⟩
  let s := btreeSwap rhs this1
  (s.2, s.1)

/-! ### Specification-side definitions (used only to state and prove
properties; the in-order contents of a node, the order/shape invariant
maintained by `insert`, and the ordered list of cursor positions). -/

mutual
def optInorder : Option Node → List Int
  | none => []
  | some n => nodeInorder n
def nodeInorder : Node → List Int
  | ⟨es, cs⟩ => seqInorder es cs
def seqInorder : List Int → List (Option Node) → List Int
  | [], [] => []
  | [], c :: _ => optInorder c
  | e :: es, [] => e :: seqInorder es []
  | e :: es, c :: cs => optInorder c ++ e :: seqInorder es cs
end

/-- All elements stored in a tree, in symmetric order. -/
def inorderT (t : BTree) : List Int :=
  match t.head with
  | none => []
  | some r => nodeInorder r

/-- A cursor position: (deepest-first node path, element index, element). -/
abbrev Pos := List Nat × Nat × Int

mutual
def posesOpt : Option Node → List Nat → List Pos
  | none, _ => []
  | some n, p => posesN n p
def posesN : Node → List Nat → List Pos
  | ⟨es, cs⟩, p => posesSeq es cs p 0
def posesSeq : List Int → List (Option Node) → List Nat → Nat → List Pos
  | [], [], _, _ => []
  | [], c :: _, p, i => posesOpt c (i :: p)
  | e :: es, [], p, i => (p, i, e) :: posesSeq es [] p (i + 1)
  | e :: es, c :: cs, p, i => posesOpt c (i :: p) ++ (p, i, e) :: posesSeq es cs p (i + 1)
end

/-- The canonical iterator at a position: the stack is the element index
pushed on the node's path. -/
def canon (u : Pos) : BTreeIterator := ⟨some u.1, u.2.1 :: u.1, none⟩

/-- `v` is the `operator++`-successor of `u`: with enough fuel (the fuel
only feeds the left-descend loop), incrementing the canonical iterator at
`u` yields the canonical iterator at `v`. -/
def IncStep (h : Option Node) (u v : Pos) : Prop :=
  ∃ f0 : Nat, ∀ f : Nat, f0 ≤ f → iterInc f h (canon u) = some (canon v)

end BTreeVer

namespace BTreeVer

/-! ### Helper lemmas for the simpler claims -/

/-- With capacity 0 every node counts as saturated, so the insert descent
never finds a home for the element: it recurses forever (no fuel ever
suffices). -/
theorem insertLoop_zero_capacity (elem : Int) :
    ∀ (fuel : Nat) (n : Node), insertLoop 0 elem fuel n = none := by
  intro fuel
  induction fuel with
  | zero => intro n; rfl
  | succ f ih =>
    intro n
    rw [insertLoop]
    simp only [Nat.not_lt_zero, if_false]
    rw [ih]

/-- A successful deep copy of the child list returns it unchanged (value
semantics: the C++ copy allocates fresh nodes with the same contents). -/
theorem copyChildren_eq : ∀ (fuel : Nat) (cs : List (Option Node)) (r : List (Option Node)),
    copyChildren fuel cs = some r → r = cs := by
  intro fuel
  induction fuel with
  | zero => intro cs r h; exact absurd h (by simp [copyChildren])
  | succ f ih =>
    intro cs r h
    match cs with
    | [] => simpa [copyChildren] using h.symm
    | none :: cs2 =>
      rw [copyChildren] at h
      match h2 : copyChildren f cs2 with
      | none => rw [h2] at h; simp at h
      | some r2 =>
        rw [h2] at h
        simp at h
        rw [← h, ih cs2 r2 h2]
    | some ⟨es, gcs⟩ :: cs2 =>
      rw [copyChildren] at h
      match h2 : copyChildren f gcs, h3 : copyChildren f cs2 with
      | none, _ => rw [h2] at h; simp at h
      | some g2, none => rw [h2, h3] at h; simp at h
      | some g2, some r2 =>
        rw [h2, h3] at h
        simp at h
        rw [← h, ih gcs g2 h2, ih cs2 r2 h3]

theorem copyNode_eq (fuel : Nat) (n n2 : Node) (h : copyNode fuel n = some n2) : n2 = n := by
  match n with
  | ⟨es, cs⟩ =>
    rw [copyNode] at h
    match h2 : copyChildren fuel cs with
    | none => rw [h2] at h; simp at h
    | some r =>
      rw [h2] at h
      simp at h
      rw [← h, copyChildren_eq fuel cs r h2]

/-! ### Claim theorems (simple/concrete claims) -/

/-- C3: the successor/predecessor inverse laws fail.  In the tree built by
inserting 4, 2, 3 with capacity 1, let `it` be the iterator `find(3)`
(an interior element: not `begin()`, and `++it` lands on 4, not on the end
sentinel).  Then `--(++it)` has index stack `[0,0,0]` instead of `it`'s
`[0,1,0]` (the right-descend of `operator--` pushes `elems.size()-1` where
the canonical path records `elems.size()`), so `--(++it) ≠ it`; moreover
`++` applied to that malformed cursor lands on the element 2, not back on
4, so `++(--jt) ≠ jt` for `jt = find(4)` as well. -/
theorem c3_dec_not_inverse_of_inc :
    buildTree 1 20 [4, 2, 3] =
      some ⟨some ⟨[4], [some ⟨[2], [none, some ⟨[3], []⟩]⟩]⟩, 1⟩ ∧
    find_ 20 3 (some ⟨[4], [some ⟨[2], [none, some ⟨[3], []⟩]⟩]⟩) =
      some ⟨some [1, 0], [0, 1, 0], none⟩ ∧
    iterInc 20 (some ⟨[4], [some ⟨[2], [none, some ⟨[3], []⟩]⟩]⟩)
        ⟨some [1, 0], [0, 1, 0], none⟩ = some ⟨some [], [0], none⟩ ∧
    iterDec 20 (some ⟨[4], [some ⟨[2], [none, some ⟨[3], []⟩]⟩]⟩)
        ⟨some [], [0], none⟩ = some ⟨some [1, 0], [0, 0, 0], none⟩ ∧
    (⟨some [1, 0], [0, 0, 0], none⟩ : BTreeIterator) ≠ ⟨some [1, 0], [0, 1, 0], none⟩ ∧
    iterInc 20 (some ⟨[4], [some ⟨[2], [none, some ⟨[3], []⟩]⟩]⟩)
        ⟨some [1, 0], [0, 0, 0], none⟩ = some ⟨some [0], [0, 0], none⟩ ∧
    iterDeref (some ⟨[4], [some ⟨[2], [none, some ⟨[3], []⟩]⟩]⟩)
        ⟨some [0], [0, 0], none⟩ = some 2 ∧
    iterDeref (some ⟨[4], [some ⟨[2], [none, some ⟨[3], []⟩]⟩]⟩)
        ⟨some [], [0], none⟩ = some 4 :=
  ⟨rfl, rfl, rfl, rfl, by decide, rfl, rfl, rfl⟩

/-- C5 (counterexample): after inserting 2 then 1 with capacity 1, the root
node has one element and one child slot: its children sequence is neither
empty nor of size `elems.size() + 1 = 2`.  The insert code resizes the
child vector only up to the descent index plus one, never to full width. -/
theorem c5_children_width_counterexample :
    buildTree 1 20 [2, 1] = some ⟨some ⟨[2], [some ⟨[1], []⟩]⟩, 1⟩ ∧
    (Node.mk [2] [some ⟨[1], []⟩]).children ≠ [] ∧
    (Node.mk [2] [some ⟨[1], []⟩]).children.length ≠
      (Node.mk [2] [some ⟨[1], []⟩]).elems.length + 1 :=
  ⟨rfl, by simp, by simp⟩

/-- C6: copy-constructing from an empty tree dereferences the null `head`
(`*original.head` in btree.h line 74) — undefined behaviour, modelled as
`none` — so the claim fails for the empty tree; on nonempty trees the deep
copy reproduces the tree value exactly, hence preserves the traversal. -/
theorem c6_copy_empty_tree_null_deref :
    (∀ fuel : Nat, btreeCopy fuel (btreeNew 40) = none) ∧
    (∀ (fuel : Nat) (t t2 : BTree), btreeCopy fuel t = some t2 →
      inorderT t2 = inorderT t ∧ t2.maxNodeElems = t.maxNodeElems) := by
  constructor
  · intro fuel; rfl
  · intro fuel t t2 h
    match t with
    | ⟨none, m⟩ => exact absurd h (by simp [btreeCopy])
    | ⟨some r, m⟩ =>
      simp only [btreeCopy, Option.map_eq_some'] at h
      obtain ⟨r2, h2, h3⟩ := h
      rw [← h3, copyNode_eq fuel r r2 h2]
      exact ⟨rfl, rfl⟩

/-- C6 witness: the deep-copy branch evaluated on the one-element tree. -/
theorem c6_witness :
    inorderT ⟨some ⟨[1], []⟩, 40⟩ = inorderT ⟨some ⟨[1], []⟩, 40⟩ ∧
    (⟨some ⟨[1], []⟩, 40⟩ : BTree).maxNodeElems = (⟨some ⟨[1], []⟩, 40⟩ : BTree).maxNodeElems :=
  c6_copy_empty_tree_null_deref.2 20 ⟨some ⟨[1], []⟩, 40⟩ ⟨some ⟨[1], []⟩, 40⟩ rfl

/-- C7 (counterexample): move-assigning the one-element tree `{1}` into a
target holding `{2}` leaves the source holding the target's old root `{2}`:
the source is not empty (`begin() ≠ end()`), because `operator=(btree&&)`
swaps rather than clears. -/
theorem c7_move_assign_source_not_empty :
    buildTree 40 5 [2] = some ⟨some ⟨[2], []⟩, 40⟩ ∧
    buildTree 40 5 [1] = some ⟨some ⟨[1], []⟩, 40⟩ ∧
    (btreeMoveAssign ⟨some ⟨[2], []⟩, 40⟩ ⟨some ⟨[1], []⟩, 40⟩).2.head ≠ none ∧
    begin_ 20 (btreeMoveAssign ⟨some ⟨[2], []⟩, 40⟩ ⟨some ⟨[1], []⟩, 40⟩).2.head ≠
      end_ 20 (btreeMoveAssign ⟨some ⟨[2], []⟩, 40⟩ ⟨some ⟨[1], []⟩, 40⟩).2.head ∧
    inorderT (btreeMoveAssign ⟨some ⟨[2], []⟩, 40⟩ ⟨some ⟨[1], []⟩, 40⟩).2 = [2] :=
  ⟨rfl, rfl, fun h => Option.noConfusion h, by decide, by simp [btreeMoveAssign, btreeSwap, inorderT, nodeInorder, seqInorder]⟩

/-- C7 (amended): move construction does empty the source and transfers the
traversal; move assignment transfers the source's traversal to the target
but leaves the target's old contents in the source (so the source ends up
empty only when the target was empty). -/
theorem c7_amended_move_semantics : ∀ (t a b : BTree),
    (btreeMoveCtor t).2.head = none ∧
    begin_ 0 (btreeMoveCtor t).2.head = end_ 0 (btreeMoveCtor t).2.head ∧
    inorderT (btreeMoveCtor t).1 = inorderT t ∧
    (btreeMoveCtor t).1.head = t.head ∧
    inorderT (btreeMoveAssign a b).1 = inorderT b ∧
    (btreeMoveAssign a b).2.head = a.head :=
  fun _ _ _ => ⟨rfl, rfl, rfl, rfl, rfl, rfl⟩

/-- C8 (counterexample): the end iterator of any empty tree is the
all-null cursor `(node = nullptr, indices = {}, endParent = nullptr)`, so
end iterators from two *different* empty trees compare equal, contrary to
the claim that they compare unequal. -/
theorem c8_end_iterators_cross_tree_equal :
    end_ 0 (btreeNew 40).head = some ⟨none, [], none⟩ ∧
    end_ 0 (btreeNew 7).head = some ⟨none, [], none⟩ ∧
    iterEq ⟨none, [], none⟩ ⟨none, [], none⟩ = true :=
  ⟨rfl, rfl, rfl⟩

/-- C8 (amended): end iterators constructed from the same empty tree
compare equal, and end iterators from two different empty trees also
compare equal (all cursor members are null/empty in both). -/
theorem c8_amended_empty_end_iterators_equal :
    ∀ (m1 m2 f1 f2 : Nat) (a b : BTreeIterator),
      end_ f1 (btreeNew m1).head = some a → end_ f2 (btreeNew m2).head = some b →
      iterEq a b = true ∧ a = b := by
  intro m1 m2 f1 f2 a b ha hb
  have ha2 : a = ⟨none, [], none⟩ := by
    simpa [end_, btreeNew] using ha.symm
  have hb2 : b = ⟨none, [], none⟩ := by
    simpa [end_, btreeNew] using hb.symm
  subst ha2; subst hb2
  exact ⟨rfl, rfl⟩

/-- C8 amended witness: instantiated at two empty trees with capacities 40
and 7. -/
theorem c8_amended_witness :
    iterEq ⟨none, [], none⟩ ⟨none, [], none⟩ = true ∧
    (⟨none, [], none⟩ : BTreeIterator) = ⟨none, [], none⟩ :=
  c8_amended_empty_end_iterators_equal 40 7 0 0 ⟨none, [], none⟩ ⟨none, [], none⟩ rfl rfl

/-- C9: the constructor accepts capacity 0 without any check (btree.h line
55 just stores it), and the subsequent `insert(1)` then never terminates:
with capacity 0 every node is saturated, so the descent loop runs forever
(no amount of fuel makes the modelled loop return). -/
theorem c9_zero_capacity_accepted_insert_diverges :
    btreeNew 0 = ⟨none, 0⟩ ∧ (∀ fuel : Nat, insert fuel (btreeNew 0) 1 = none) := by
  refine ⟨rfl, fun fuel => ?_⟩
  show insert fuel ⟨none, 0⟩ 1 = none
  rw [insert]
  simp only [find_, end_]
  rw [insertLoop_zero_capacity]
  simp

end BTreeVer

namespace BTreeVer

/-! ### Structural lemmas about sizes and in-order sequences -/

theorem sizeOf_child_lt {cs : List (Option Node)} {i : Nat} {c : Node}
    (h : cs[i]? = some (some c)) : sizeOf c < sizeOf cs := by
  have hm : some c ∈ cs := by
    rw [List.mem_iff_getElem?]
    exact ⟨i, h⟩
  have h2 : sizeOf (some c) < sizeOf cs := List.sizeOf_lt_of_mem hm
  simp at h2
  omega

theorem sizeOf_child_lt_node {n : Node} {i : Nat} {c : Node}
    (h : n.children[i]? = some (some c)) : sizeOf c < sizeOf n := by
  match n with
  | ⟨es, cs⟩ =>
    have h2 : sizeOf c < sizeOf cs := sizeOf_child_lt (by simpa using h)
    have h3 : sizeOf (Node.mk es cs) = 1 + sizeOf es + sizeOf cs := by simp
    omega

theorem node_sizeOf_pos (n : Node) : 0 < sizeOf n := by
  match n with
  | ⟨es, cs⟩ =>
    have h3 : sizeOf (Node.mk es cs) = 1 + sizeOf es + sizeOf cs := by simp
    omega

@[simp] theorem optInorder_none : optInorder none = [] := by rw [optInorder]

@[simp] theorem optInorder_some (n : Node) : optInorder (some n) = nodeInorder n := by
  rw [optInorder]

@[simp] theorem nodeInorder_mk (es : List Int) (cs : List (Option Node)) :
    nodeInorder ⟨es, cs⟩ = seqInorder es cs := by rw [nodeInorder]

@[simp] theorem seqInorder_nil_nil : seqInorder [] [] = [] := by rw [seqInorder]

@[simp] theorem seqInorder_nil_cons (c : Option Node) (cs : List (Option Node)) :
    seqInorder [] (c :: cs) = optInorder c := by rw [seqInorder]

@[simp] theorem seqInorder_cons_nil (e : Int) (es : List Int) :
    seqInorder (e :: es) [] = e :: seqInorder es [] := by rw [seqInorder]

@[simp] theorem seqInorder_cons_cons (e : Int) (es : List Int) (c : Option Node)
    (cs : List (Option Node)) :
    seqInorder (e :: es) (c :: cs) = optInorder c ++ e :: seqInorder es cs := by
  rw [seqInorder]

@[simp] theorem seqInorder_nil_children (es : List Int) : seqInorder es [] = es := by
  induction es with
  | nil => simp
  | cons e es ih => simp [ih]

/-- Extending the child sequence with absent slots does not change the
in-order contents. -/
theorem seqInorder_append_replicate_none (es : List Int) (cs : List (Option Node)) (k : Nat) :
    seqInorder es (cs ++ List.replicate k none) = seqInorder es cs := by
  induction cs generalizing es with
  | nil =>
    simp only [List.nil_append]
    induction es generalizing k with
    | nil =>
      match k with
      | 0 => simp
      | k + 1 => simp [List.replicate_succ]
    | cons e es ih =>
      match k with
      | 0 => simp
      | k + 1 => simp [List.replicate_succ, ih]
  | cons c cs ih =>
    match es with
    | [] => simp
    | e :: es => simp [ih]

/-- The tail of an in-order sequence after a distinguished child slot:
the element at the slot's index followed by the interleaving of the
remaining elements and child slots. -/
def tailSeq : List Int → List (Option Node) → List Int
  | [], _ => []
  | e :: es, cs => e :: seqInorder es cs

/-- Splitting an in-order sequence at a child slot. -/
theorem seqInorder_split (es1 es2 : List Int) (cs1 cs2 : List (Option Node))
    (slot : Option Node) (hlen : es1.length = cs1.length) :
    seqInorder (es1 ++ es2) (cs1 ++ slot :: cs2) =
      seqInorder es1 cs1 ++ optInorder slot ++ tailSeq es2 cs2 := by
  induction cs1 generalizing es1 with
  | nil =>
    match es1 with
    | [] =>
      match es2 with
      | [] => simp [tailSeq]
      | e :: es2 => simp [tailSeq]
    | e :: es1 => simp at hlen
  | cons c cs1 ih =>
    match es1 with
    | [] => simp at hlen
    | e :: es1 =>
      simp only [List.cons_append, seqInorder_cons_cons]
      rw [ih es1 (by simpa using hlen)]
      simp

/-- The elements of a node are a sublist of its in-order sequence. -/
theorem sublist_seqInorder (es : List Int) (cs : List (Option Node)) :
    es.Sublist (seqInorder es cs) := by
  induction es generalizing cs with
  | nil => exact List.nil_sublist _
  | cons e es ih =>
    match cs with
    | [] => simp
    | c :: cs =>
      simp only [seqInorder_cons_cons]
      exact ((ih cs).cons_cons e).trans (List.sublist_append_right _ _)

theorem mem_of_mem_elems {x : Int} {es : List Int} {cs : List (Option Node)}
    (h : x ∈ es) : x ∈ seqInorder es cs :=
  (sublist_seqInorder es cs).mem h

/-- Membership in an in-order sequence, for well-shaped slot counts:
an element is either one of the node's own elements or lies in the subtree
of one of the child slots. -/
theorem mem_seqInorder_iff (x : Int) : ∀ (es : List Int) (cs : List (Option Node)),
    cs.length ≤ es.length + 1 →
    (x ∈ seqInorder es cs ↔
      x ∈ es ∨ ∃ (j : Nat) (c : Node), cs[j]? = some (some c) ∧ x ∈ nodeInorder c) := by
  intro es
  induction es with
  | nil =>
    intro cs hlen
    match cs with
    | [] => simp
    | [c] =>
      simp only [seqInorder_nil_cons, List.not_mem_nil, false_or]
      constructor
      · intro hx
        match c with
        | none => simp at hx
        | some n => exact ⟨0, n, rfl, by simpa using hx⟩
      · rintro ⟨j, cc, hj, hcc⟩
        match j with
        | 0 =>
          simp at hj
          subst hj
          simpa using hcc
        | j + 1 => simp at hj
    | c :: c2 :: cs => simp at hlen
  | cons e es ih =>
    intro cs hlen
    match cs with
    | [] =>
      simp only [seqInorder_nil_children]
      constructor
      · intro hx; exact Or.inl hx
      · rintro (hx | ⟨j, c, hj, _⟩)
        · exact hx
        · simp at hj
    | c :: cs =>
      simp only [seqInorder_cons_cons, List.mem_append, List.mem_cons]
      rw [ih cs (by simpa using hlen)]
      constructor
      · rintro (hc | he | hes | ⟨j, cc, hj, hcc⟩)
        · match c with
          | none => simp at hc
          | some n => exact Or.inr ⟨0, n, by simp, by simpa using hc⟩
        · exact Or.inl (by simp [he])
        · exact Or.inl (by simp [hes])
        · exact Or.inr ⟨j + 1, cc, by simpa using hj, hcc⟩
      · rintro ((he | hes) | ⟨j, cc, hj, hcc⟩)
        · exact Or.inr (Or.inl he)
        · exact Or.inr (Or.inr (Or.inl hes))
        · match j with
          | 0 =>
            simp at hj
            subst hj
            exact Or.inl (by simpa using hcc)
          | j + 1 => exact Or.inr (Or.inr (Or.inr ⟨j, cc, by simpa using hj, hcc⟩))

/-- Appending a nonempty list on the right determines the last entry. -/
theorem getLast?_append_ne {A l : List Int} (h : l ≠ []) :
    (A ++ l).getLast? = l.getLast? := by
  rw [List.getLast?_append, List.getLast?_eq_getLast l h]
  rfl

/-- The last entry of an in-order sequence over equally long element/child
sequences is the last element. -/
theorem seqInorder_getLast? (es : List Int) (cs : List (Option Node))
    (hne : es ≠ []) (hlen : es.length = cs.length) :
    (seqInorder es cs).getLast? = es.getLast? := by
  induction es generalizing cs with
  | nil => exact absurd rfl hne
  | cons e es ih =>
    match cs with
    | [] => simp at hlen
    | c :: cs =>
      simp only [seqInorder_cons_cons]
      rw [getLast?_append_ne (by simp)]
      match es, cs with
      | [], [] => simp
      | [], c2 :: cs2 => simp at hlen
      | e2 :: es2, [] => simp at hlen
      | e2 :: es2, c2 :: cs2 =>
        have hr := ih (c2 :: cs2) (by simp) (by simpa using hlen)
        have hne2 : seqInorder (e2 :: es2) (c2 :: cs2) ≠ [] := by
          intro hemp
          have hsub := sublist_seqInorder (e2 :: es2) (c2 :: cs2)
          rw [hemp] at hsub
          simpa using List.sublist_nil.mp hsub
        rw [show (e :: seqInorder (e2 :: es2) (c2 :: cs2)) =
              [e] ++ seqInorder (e2 :: es2) (c2 :: cs2) from rfl,
          getLast?_append_ne hne2, hr,
          show (e :: e2 :: es2) = [e] ++ (e2 :: es2) from rfl,
          getLast?_append_ne (by simp)]

/-! ### The shape invariant maintained by insert, and sortedness -/

/-- Structural invariant of every node reachable by `insert`: nonempty,
within capacity, children present only once the node is saturated, at most
`elems.length + 1` child slots, the rightmost slot (when any) holding a
real node, and every present child well-shaped in turn. -/
inductive Shape (maxE : Nat) : Node → Prop
  | mk : ∀ (es : List Int) (cs : List (Option Node)),
      es ≠ [] → es.length ≤ maxE →
      (cs = [] ∨ (es.length = maxE ∧ cs ≠ [] ∧ cs.getLast? ≠ some none)) →
      cs.length ≤ es.length + 1 →
      (∀ c ∈ cs, ∀ m : Node, c = some m → Shape maxE m) →
      Shape maxE ⟨es, cs⟩

/-- A good node: well-shaped with a strictly sorted in-order sequence. -/
def GoodN (maxE : Nat) (n : Node) : Prop :=
  Shape maxE n ∧ List.Pairwise (· < ·) (nodeInorder n)

/-- A good tree: the root, when present, is a good node. -/
def GoodT (t : BTree) : Prop :=
  ∀ r, t.head = some r → GoodN t.maxNodeElems r

theorem shape_components {maxE : Nat} {es : List Int} {cs : List (Option Node)}
    (h : Shape maxE ⟨es, cs⟩) :
    es ≠ [] ∧ es.length ≤ maxE ∧
      (cs = [] ∨ (es.length = maxE ∧ cs ≠ [] ∧ cs.getLast? ≠ some none)) ∧
      cs.length ≤ es.length + 1 ∧ (∀ c ∈ cs, ∀ m : Node, c = some m → Shape maxE m) := by
  cases h with
  | mk _ _ h1 h2 h3 h4 h5 => exact ⟨h1, h2, h3, h4, h5⟩

/-! ### Pairwise order helpers -/

theorem mem_of_getLast? {l : List Int} {a : Int} (h : l.getLast? = some a) : a ∈ l := by
  match l with
  | [] => simp at h
  | b :: l2 =>
    have hne : b :: l2 ≠ [] := by simp
    rw [List.getLast?_eq_getLast _ hne] at h
    have h2 : (b :: l2).getLast hne = a := by
      have := h.symm
      exact Option.some.inj this.symm
    rw [← h2]
    exact List.getLast_mem hne

theorem pairwise_le_getLast {A : List Int} {a x : Int}
    (hp : List.Pairwise (· < ·) A) (hl : A.getLast? = some a) (hx : x ∈ A) : x ≤ a := by
  induction A with
  | nil => simp at hx
  | cons b B ih =>
    rcases List.mem_cons.mp hx with rfl | hx2
    · match B with
      | [] =>
        simp at hl
        omega
      | c :: B2 =>
        have hl2 : (c :: B2).getLast? = some a := by simpa using hl
        have ha : a ∈ c :: B2 := mem_of_getLast? hl2
        rw [List.pairwise_cons] at hp
        exact le_of_lt (hp.1 a ha)
    · match B with
      | [] => simp at hx2
      | c :: B2 =>
        have hl2 : (c :: B2).getLast? = some a := by simpa using hl
        rw [List.pairwise_cons] at hp
        exact ih hp.2 hl2 hx2

theorem pairwise_ge_head {b : Int} {B : List Int} {y : Int}
    (hp : List.Pairwise (· < ·) (b :: B)) (hy : y ∈ b :: B) : b ≤ y := by
  rw [List.pairwise_cons] at hp
  rcases List.mem_cons.mp hy with rfl | hy2
  · exact le_refl y
  · exact le_of_lt (hp.1 y hy2)

theorem pairwise_insert_middle {L1 L2 : List Int} {e : Int}
    (hp : List.Pairwise (· < ·) (L1 ++ L2))
    (h1 : ∀ x ∈ L1, x < e) (h2 : ∀ y ∈ L2, e < y) :
    List.Pairwise (· < ·) (L1 ++ e :: L2) := by
  rw [List.pairwise_append] at hp
  obtain ⟨hpl, hpr, hcross⟩ := hp
  rw [List.pairwise_append]
  refine ⟨hpl, ?_, ?_⟩
  · rw [List.pairwise_cons]
    exact ⟨h2, hpr⟩
  · intro a ha b hb
    rcases List.mem_cons.mp hb with rfl | hb2
    · exact h1 a ha
    · exact hcross a ha b hb2

/-! ### Properties of the element scans -/

theorem scanElems_shift (elem : Int) : ∀ (es : List Int) (k : Nat),
    scanElems elem es (k + 1) = Sum.map (· + 1) (· + 1) (scanElems elem es k) := by
  intro es
  induction es with
  | nil => intro k; rfl
  | cons e es ih =>
    intro k
    simp only [scanElems]
    by_cases h1 : elem < e
    · simp [h1]
    · by_cases h2 : e = elem
      · simp [h1, h2]
      · simp only [h1, h2, if_false]
        exact ih (k + 1)

theorem scanElems_inr_getElem (elem : Int) : ∀ (es : List Int) (i : Nat),
    scanElems elem es 0 = Sum.inr i → es[i]? = some elem := by
  intro es
  induction es with
  | nil => intro i h; simp [scanElems] at h
  | cons e es ih =>
    intro i h
    simp only [scanElems] at h
    by_cases h1 : elem < e
    · simp [h1] at h
    · by_cases h2 : e = elem
      · simp [h1, h2] at h
        subst h
        simp [h2]
      · simp only [h1, h2, if_false] at h
        rw [show (0 : Nat) + 1 = 0 + 1 from rfl, scanElems_shift] at h
        match hs : scanElems elem es 0 with
        | Sum.inl j => rw [hs] at h; simp at h
        | Sum.inr j =>
          rw [hs] at h
          simp at h
          have hj := ih j hs
          subst h
          simpa using hj

theorem scanElems_inl_spec (elem : Int) : ∀ (es : List Int) (i : Nat),
    List.Pairwise (· < ·) es → scanElems elem es 0 = Sum.inl i →
    i ≤ es.length ∧
      ∀ (k : Nat) (x : Int), es[k]? = some x →
        (k < i → x < elem) ∧ (i ≤ k → elem < x) := by
  intro es
  induction es with
  | nil =>
    intro i hp h
    simp [scanElems] at h
    subst h
    exact ⟨by simp, by intro k x hx; simp at hx⟩
  | cons e es ih =>
    intro i hp h
    rw [List.pairwise_cons] at hp
    simp only [scanElems] at h
    by_cases h1 : elem < e
    · simp [h1] at h
      subst h
      refine ⟨by simp, ?_⟩
      intro k x hx
      refine ⟨by omega, fun _ => ?_⟩
      match k with
      | 0 =>
        simp at hx
        omega
      | k + 1 =>
        simp at hx
        have hmem : x ∈ es := by
          rw [List.mem_iff_getElem?]
          exact ⟨k, hx⟩
        exact lt_trans h1 (hp.1 x hmem)
    · by_cases h2 : e = elem
      · simp [h1, h2] at h
      · simp only [h1, h2, if_false] at h
        have he : e < elem := by
          rcases lt_trichotomy e elem with h3 | h3 | h3
          · exact h3
          · exact absurd h3 h2
          · exact absurd h3 h1
        rw [show (0 : Nat) + 1 = 0 + 1 from rfl, scanElems_shift] at h
        match hs : scanElems elem es 0 with
        | Sum.inr j => rw [hs] at h; simp at h
        | Sum.inl j =>
          rw [hs] at h
          simp at h
          obtain ⟨hj1, hj2⟩ := ih j hp.2 hs
          subst h
          refine ⟨by simpa using hj1, ?_⟩
          intro k x hx
          match k with
          | 0 =>
            simp at hx
            exact ⟨fun _ => by omega, fun hk => by omega⟩
          | k + 1 =>
            simp at hx
            have := hj2 k x hx
            exact ⟨fun hk => this.1 (by omega), fun hk => this.2 (by omega)⟩

theorem scanElems_found (elem : Int) : ∀ (es : List Int),
    List.Pairwise (· < ·) es → elem ∈ es →
    ∃ i, scanElems elem es 0 = Sum.inr i ∧ es[i]? = some elem := by
  intro es
  induction es with
  | nil => intro _ h; simp at h
  | cons e es ih =>
    intro hp hm
    rw [List.pairwise_cons] at hp
    rcases List.mem_cons.mp hm with rfl | hm2
    · refine ⟨0, ?_, by simp⟩
      simp [scanElems, lt_irrefl]
    · have he : e < elem := hp.1 elem hm2
      obtain ⟨j, hj1, hj2⟩ := ih hp.2 hm2
      refine ⟨j + 1, ?_, by simpa using hj2⟩
      simp only [scanElems, if_neg (lt_asymm he), if_neg (ne_of_lt he)]
      rw [show (0 : Nat) + 1 = 0 + 1 from rfl, scanElems_shift, hj1]
      rfl

theorem insScan_shift (elem : Int) : ∀ (es : List Int) (k : Nat),
    insScan elem es (k + 1) = insScan elem es k + 1 := by
  intro es
  induction es with
  | nil => intro k; rfl
  | cons e es ih =>
    intro k
    simp only [insScan]
    by_cases h1 : elem < e
    · simp [h1]
    · simp only [h1, if_false]
      exact ih (k + 1)

theorem insScan_spec (elem : Int) : ∀ (es : List Int),
    List.Pairwise (· < ·) es → elem ∉ es →
    insScan elem es 0 ≤ es.length ∧
      ∀ (k : Nat) (x : Int), es[k]? = some x →
        (k < insScan elem es 0 → x < elem) ∧ (insScan elem es 0 ≤ k → elem < x) := by
  intro es
  induction es with
  | nil =>
    intro _ _
    exact ⟨by simp [insScan], by intro k x hx; simp at hx⟩
  | cons e es ih =>
    intro hp hne
    rw [List.pairwise_cons] at hp
    have hene : e ≠ elem := fun h => hne (by simp [h])
    have hnes : elem ∉ es := fun h => hne (by simp [h])
    simp only [insScan]
    by_cases h1 : elem < e
    · simp only [h1, if_true]
      refine ⟨by simp, ?_⟩
      intro k x hx
      refine ⟨by omega, fun _ => ?_⟩
      match k with
      | 0 =>
        simp at hx
        omega
      | k + 1 =>
        simp at hx
        have hmem : x ∈ es := by
          rw [List.mem_iff_getElem?]
          exact ⟨k, hx⟩
        exact lt_trans h1 (hp.1 x hmem)
    · simp only [h1, if_false]
      have he : e < elem := by
        rcases lt_trichotomy e elem with h3 | h3 | h3
        · exact h3
        · exact absurd h3 hene
        · exact absurd h3 h1
      rw [show (0 : Nat) + 1 = 0 + 1 from rfl, insScan_shift]
      obtain ⟨hj1, hj2⟩ := ih hp.2 hnes
      refine ⟨by simpa using hj1, ?_⟩
      intro k x hx
      match k with
      | 0 =>
        simp at hx
        exact ⟨fun _ => by omega, fun hk => by omega⟩
      | k + 1 =>
        simp at hx
        have := hj2 k x hx
        exact ⟨fun hk => this.1 (by omega), fun hk => this.2 (by omega)⟩

theorem insertIdx_eq_take_cons_drop (a : Int) : ∀ (i : Nat) (l : List Int), i ≤ l.length →
    l.insertIdx i a = l.take i ++ a :: l.drop i := by
  intro i
  induction i with
  | zero => intro l h; simp
  | succ j ih =>
    intro l h
    match l with
    | [] => simp at h
    | x :: l =>
      rw [List.insertIdx_succ_cons]
      simp only [List.take_succ_cons, List.drop_succ_cons, List.cons_append]
      rw [ih l (by simpa using h)]

end BTreeVer

namespace BTreeVer

/-! ### Splitting an in-order sequence at a child slot -/

theorem seqInorder_split_at {es : List Int} {cs : List (Option Node)} {i : Nat}
    {slot : Option Node}
    (hlen : cs.length ≤ es.length + 1) (h : cs[i]? = some slot) :
    seqInorder es cs =
      seqInorder (es.take i) (cs.take i) ++ optInorder slot ++
        tailSeq (es.drop i) (cs.drop (i + 1)) := by
  have hi : i < cs.length := by
    by_contra hc
    rw [List.getElem?_eq_none (by omega)] at h
    exact Option.noConfusion h
  have hie : i ≤ es.length := by omega
  obtain ⟨hilt, hval⟩ := List.getElem?_eq_some.mp h
  have hcs : cs = cs.take i ++ slot :: cs.drop (i + 1) := by
    have h2 := List.take_append_drop i cs
    rw [List.drop_eq_getElem_cons hi, hval] at h2
    exact h2.symm
  have hes : es = es.take i ++ es.drop i := (List.take_append_drop i es).symm
  have hlen2 : (es.take i).length = (cs.take i).length := by
    rw [List.length_take, List.length_take]
    omega
  calc seqInorder es cs
      = seqInorder (es.take i ++ es.drop i) (cs.take i ++ slot :: cs.drop (i + 1)) := by
        rw [← hes, ← hcs]
    _ = _ := seqInorder_split _ _ _ _ _ hlen2

/-- All pairwise facts across a split at a child slot. -/
theorem pairwise_split_at {es : List Int} {cs : List (Option Node)} {i : Nat}
    {slot : Option Node}
    (hp : List.Pairwise (· < ·) (seqInorder es cs))
    (hlen : cs.length ≤ es.length + 1) (h : cs[i]? = some slot) :
    List.Pairwise (· < ·) (seqInorder (es.take i) (cs.take i)) ∧
    List.Pairwise (· < ·) (optInorder slot) ∧
    List.Pairwise (· < ·) (tailSeq (es.drop i) (cs.drop (i + 1))) ∧
    (∀ x ∈ seqInorder (es.take i) (cs.take i), ∀ y ∈ optInorder slot, x < y) ∧
    (∀ x ∈ optInorder slot, ∀ y ∈ tailSeq (es.drop i) (cs.drop (i + 1)), x < y) ∧
    (∀ x ∈ seqInorder (es.take i) (cs.take i),
      ∀ y ∈ tailSeq (es.drop i) (cs.drop (i + 1)), x < y) := by
  rw [seqInorder_split_at hlen h, List.append_assoc, List.pairwise_append] at hp
  obtain ⟨hpA, hrest, hcrossA⟩ := hp
  rw [List.pairwise_append] at hrest
  obtain ⟨hpM, hpB, hcrossMB⟩ := hrest
  refine ⟨hpA, hpM, hpB, ?_, hcrossMB, ?_⟩
  · intro x hx y hy
    exact hcrossA x hx y (List.mem_append.mpr (Or.inl hy))
  · intro x hx y hy
    exact hcrossA x hx y (List.mem_append.mpr (Or.inr hy))

theorem goodN_child {maxE : Nat} {n c : Node} {i : Nat}
    (hg : GoodN maxE n) (hc : n.children[i]? = some (some c)) : GoodN maxE c := by
  obtain ⟨hs, hp⟩ := hg
  match n with
  | ⟨es, cs⟩ =>
    obtain ⟨h1, h2, h3, h4, h5⟩ := shape_components hs
    have hc2 : cs[i]? = some (some c) := by simpa using hc
    have hcs : (some c) ∈ cs := List.mem_iff_getElem?.mpr ⟨i, hc2⟩
    refine ⟨h5 _ hcs c rfl, ?_⟩
    rw [nodeInorder_mk] at hp
    have := (pairwise_split_at hp h4 hc2).2.1
    simpa using this

theorem goodN_elems_pairwise {maxE : Nat} {n : Node} (hg : GoodN maxE n) :
    List.Pairwise (· < ·) n.elems := by
  match n with
  | ⟨es, cs⟩ =>
    have := hg.2
    rw [nodeInorder_mk] at this
    exact List.Pairwise.sublist (by simpa using sublist_seqInorder es cs) this

/-- Bounds on both sides of a split, given the scan-index facts. -/
theorem split_mem_bounds {es : List Int} {cs : List (Option Node)} {i : Nat}
    {slot : Option Node} {elem : Int}
    (hp : List.Pairwise (· < ·) (seqInorder es cs))
    (hlen : cs.length ≤ es.length + 1)
    (hslot : cs[i]? = some slot)
    (hsc : ∀ (k : Nat) (x : Int), es[k]? = some x →
      (k < i → x < elem) ∧ (i ≤ k → elem < x)) :
    (∀ x ∈ seqInorder (es.take i) (cs.take i), x < elem) ∧
    (∀ y ∈ tailSeq (es.drop i) (cs.drop (i + 1)), elem < y) := by
  obtain ⟨hpA, _, hpB, _, _, _⟩ := pairwise_split_at hp hlen hslot
  have hic : i < cs.length := by
    by_contra hcon
    rw [List.getElem?_eq_none (by omega)] at hslot
    exact Option.noConfusion hslot
  have hie : i ≤ es.length := by omega
  constructor
  · intro x hx
    rcases Nat.eq_zero_or_pos i with rfl | hpos
    · simp at hx
    · obtain ⟨j, rfl⟩ : ∃ j, i = j + 1 := ⟨i - 1, by omega⟩
      have hjlt : j < es.length := by omega
      have hne : es.take (j + 1) ≠ [] := by
        have : (es.take (j + 1)).length = j + 1 := by
          rw [List.length_take]
          omega
        intro hcon
        rw [hcon] at this
        simp at this
      have hlens : (es.take (j + 1)).length = (cs.take (j + 1)).length := by
        rw [List.length_take, List.length_take]
        omega
      have htake : es.take (j + 1) = es.take j ++ [es[j]] := by
        rw [List.take_succ, List.getElem?_eq_getElem hjlt]
        rfl
      have hAlast : (seqInorder (es.take (j + 1)) (cs.take (j + 1))).getLast? =
          some es[j] := by
        rw [seqInorder_getLast? _ _ hne hlens, htake, List.getLast?_concat]
      have hle := pairwise_le_getLast hpA hAlast hx
      have hlt := (hsc j es[j] (List.getElem?_eq_getElem hjlt)).1 (by omega)
      omega
  · intro y hy
    match hd : es.drop i with
    | [] =>
      rw [hd] at hy
      simp [tailSeq] at hy
    | e0 :: rest =>
      have hilt : i < es.length := by
        by_contra hcon
        rw [List.drop_eq_nil_of_le (by omega)] at hd
        exact List.noConfusion hd
      have he0 : es[i]? = some e0 := by
        rw [List.drop_eq_getElem_cons hilt] at hd
        rw [List.getElem?_eq_getElem hilt]
        exact congrArg some (List.head_eq_of_cons_eq hd).symm ▸ rfl
      rw [hd] at hy hpB
      have hhead : e0 ≤ y := pairwise_ge_head (by simpa [tailSeq] using hpB)
        (by simpa [tailSeq] using hy)
      have helem : elem < e0 := (hsc i e0 he0).2 (le_refl i)
      omega

/-- The scan index is the only child slot whose subtree can contain the
scanned element. -/
theorem child_slot_unique {maxE : Nat} {es : List Int} {cs : List (Option Node)}
    {elem : Int} {i j : Nat} {c : Node}
    (hg : GoodN maxE ⟨es, cs⟩) (hi : i ≤ es.length)
    (hscan : ∀ (k : Nat) (x : Int), es[k]? = some x →
      (k < i → x < elem) ∧ (i ≤ k → elem < x))
    (hj : cs[j]? = some (some c)) (hmem : elem ∈ nodeInorder c) : j = i := by
  obtain ⟨hs, hp⟩ := hg
  obtain ⟨h1, h2, h3, h4, h5⟩ := shape_components hs
  rw [nodeInorder_mk] at hp
  have hjc : j < cs.length := by
    by_contra hcon
    rw [List.getElem?_eq_none (by omega)] at hj
    exact Option.noConfusion hj
  have hje : j ≤ es.length := by omega
  obtain ⟨hpA, hpM, hpB, hcAM, hcMB, hcAB⟩ := pairwise_split_at hp h4 hj
  rcases lt_trichotomy j i with hlt | heq | hgt
  · exfalso
    have hjlt : j < es.length := by omega
    have hej : es[j]? = some es[j] := List.getElem?_eq_getElem hjlt
    have hejB : es[j] ∈ tailSeq (es.drop j) (cs.drop (j + 1)) := by
      rw [List.drop_eq_getElem_cons hjlt]
      simp [tailSeq]
    have h6 : elem < es[j] := hcMB elem (by simpa using hmem) es[j] hejB
    have h7 : es[j] < elem := (hscan j es[j] hej).1 hlt
    omega
  · exact heq
  · exfalso
    have hilt : i < es.length := by omega
    have hei : es[i]? = some es[i] := List.getElem?_eq_getElem hilt
    have heiA : es[i] ∈ seqInorder (es.take j) (cs.take j) := by
      have hmt : es[i] ∈ es.take j := by
        rw [List.mem_iff_getElem?]
        refine ⟨i, ?_⟩
        rw [List.getElem?_take]
        simp [hgt, hei]
      exact (sublist_seqInorder _ _).mem hmt
    have h6 : es[i] < elem := hcAM es[i] heiA elem (by simpa using hmem)
    have h7 : elem < es[i] := (hscan i es[i] hei).2 (le_refl i)
    omega

end BTreeVer

namespace BTreeVer

/-! ### Correctness of the find descent -/

theorem nodeAtO_child {h : Option Node} {p : List Nat} {n c : Node} {i : Nat}
    (hp : nodeAtO h p = some n) (hc : n.children[i]? = some (some c)) :
    nodeAtO h (i :: p) = some c := by
  match h with
  | none => simp [nodeAtO] at hp
  | some r =>
    simp only [nodeAtO] at hp ⊢
    rw [nodeAtR, hp]
    simp [hc]

theorem findAux_found (elem : Int) : ∀ (fuel : Nat) (n : Node) (p : List Nat)
    (hOpt : Option Node) (maxE : Nat),
    sizeOf n < fuel → GoodN maxE n → nodeAtO hOpt p = some n → elem ∈ nodeInorder n →
    ∃ (q : List Nat) (i : Nat) (m : Node),
      findAux elem fuel n p = some (some ⟨some q, i :: q, none⟩) ∧
      nodeAtO hOpt q = some m ∧ m.elems[i]? = some elem := by
  intro fuel
  induction fuel with
  | zero =>
    intro n p hOpt maxE hf
    exact absurd hf (by omega)
  | succ f ih =>
    intro n p hOpt maxE hf hg hpath hmem
    match n with
    | ⟨es, cs⟩ =>
      have hpes : List.Pairwise (· < ·) es := by
        simpa using goodN_elems_pairwise hg
      match hscan : scanElems elem es 0 with
      | Sum.inr i =>
        refine ⟨p, i, ⟨es, cs⟩, ?_, hpath, ?_⟩
        · simp [findAux, hscan]
        · simpa using scanElems_inr_getElem elem es i hscan
      | Sum.inl i =>
        have hnes : elem ∉ es := by
          intro hin
          obtain ⟨i2, hi2, _⟩ := scanElems_found elem es hpes hin
          rw [hscan] at hi2
          exact Sum.noConfusion hi2
        obtain ⟨hilen, hscanf⟩ := scanElems_inl_spec elem es i hpes hscan
        obtain ⟨h1, h2, h3, h4, h5⟩ := shape_components hg.1
        have hmem2 := (mem_seqInorder_iff elem es cs h4).mp (by simpa using hmem)
        rcases hmem2 with hin | ⟨j, c, hj, hc⟩
        · exact absurd hin hnes
        · have hji : j = i := child_slot_unique hg hilen hscanf hj hc
          subst hji
          have hcg : GoodN maxE c := goodN_child hg (by simpa using hj)
          have hfc : sizeOf c < f := by
            have := sizeOf_child_lt_node (n := ⟨es, cs⟩) (i := j) (by simpa using hj)
            omega
          have hpath2 : nodeAtO hOpt (j :: p) = some c :=
            nodeAtO_child hpath (by simpa using hj)
          obtain ⟨q, i2, m, hfind, hq, hm⟩ := ih c (j :: p) hOpt maxE hfc hcg hpath2 hc
          refine ⟨q, i2, m, ?_, hq, hm⟩
          simp only [findAux, Node.elems_mk, Node.children_mk, hscan, hj]
          exact hfind

theorem findAux_notfound (elem : Int) : ∀ (fuel : Nat) (n : Node) (p : List Nat)
    (maxE : Nat),
    sizeOf n < fuel → GoodN maxE n → elem ∉ nodeInorder n →
    findAux elem fuel n p = some none := by
  intro fuel
  induction fuel with
  | zero =>
    intro n p maxE hf
    exact absurd hf (by omega)
  | succ f ih =>
    intro n p maxE hf hg hmem
    match n with
    | ⟨es, cs⟩ =>
      match hscan : scanElems elem es 0 with
      | Sum.inr i =>
        exfalso
        have := scanElems_inr_getElem elem es i hscan
        have hin : elem ∈ es := List.mem_iff_getElem?.mpr ⟨i, this⟩
        exact hmem (by simpa using @mem_of_mem_elems _ _ cs hin)
      | Sum.inl i =>
        match hslot : cs[i]? with
        | some (some c) =>
          have hcg : GoodN maxE c := goodN_child hg (by simpa using hslot)
          have hfc : sizeOf c < f := by
            have := sizeOf_child_lt_node (n := ⟨es, cs⟩) (i := i) (by simpa using hslot)
            omega
          have hmc : elem ∉ nodeInorder c := by
            intro hin
            obtain ⟨h1, h2, h3, h4, h5⟩ := shape_components hg.1
            exact hmem (by
              rw [nodeInorder_mk]
              exact (mem_seqInorder_iff elem es cs h4).mpr (Or.inr ⟨i, c, hslot, hin⟩))
          have := ih c (i :: p) maxE hfc hcg hmc
          simp only [findAux, Node.elems_mk, Node.children_mk, hscan, hslot]
          exact this
        | some none =>
          simp [findAux, hscan, hslot]
        | none =>
          simp [findAux, hscan, hslot]

/-- Any successful found-result of the find descent genuinely points at the
element: the cursor is the canonical one for a slot holding the element. -/
theorem findAux_some_some (elem : Int) : ∀ (fuel : Nat) (n : Node) (p : List Nat)
    (hOpt : Option Node) (maxE : Nat) (it : BTreeIterator),
    findAux elem fuel n p = some (some it) → GoodN maxE n → nodeAtO hOpt p = some n →
    ∃ (q : List Nat) (i : Nat) (m : Node),
      it = ⟨some q, i :: q, none⟩ ∧ nodeAtO hOpt q = some m ∧
      m.elems[i]? = some elem ∧ elem ∈ nodeInorder n := by
  intro fuel
  induction fuel with
  | zero =>
    intro n p hOpt maxE it hfind
    exact absurd hfind (by simp [findAux])
  | succ f ih =>
    intro n p hOpt maxE it hfind hg hpath
    match n with
    | ⟨es, cs⟩ =>
      match hscan : scanElems elem es 0 with
      | Sum.inr i =>
        simp only [findAux, Node.elems_mk, Node.children_mk, hscan] at hfind
        have hit : it = ⟨some p, i :: p, none⟩ := by
          have := Option.some.inj (Option.some.inj hfind)
          exact this.symm
        have hei := scanElems_inr_getElem elem es i hscan
        refine ⟨p, i, ⟨es, cs⟩, hit, hpath, by simpa using hei, ?_⟩
        have hin : elem ∈ es := List.mem_iff_getElem?.mpr ⟨i, hei⟩
        simpa using @mem_of_mem_elems _ _ cs hin
      | Sum.inl i =>
        match hslot : cs[i]? with
        | some (some c) =>
          simp only [findAux, Node.elems_mk, Node.children_mk, hscan, hslot] at hfind
          have hcg : GoodN maxE c := goodN_child hg (by simpa using hslot)
          have hpath2 : nodeAtO hOpt (i :: p) = some c :=
            nodeAtO_child hpath (by simpa using hslot)
          obtain ⟨q, i2, m, hit, hq, hm, hmemc⟩ := ih c (i :: p) hOpt maxE it hfind hcg hpath2
          refine ⟨q, i2, m, hit, hq, hm, ?_⟩
          obtain ⟨h1, h2, h3, h4, h5⟩ := shape_components hg.1
          rw [nodeInorder_mk]
          exact (mem_seqInorder_iff elem es cs h4).mpr (Or.inr ⟨i, c, hslot, hmemc⟩)
        | some none =>
          simp [findAux, hscan, hslot] at hfind
        | none =>
          simp [findAux, hscan, hslot] at hfind

/-- Any successful not-found result of the find descent is genuine: the
element is not in the subtree. -/
theorem findAux_some_none (elem : Int) : ∀ (fuel : Nat) (n : Node) (p : List Nat)
    (maxE : Nat),
    findAux elem fuel n p = some none → GoodN maxE n → elem ∉ nodeInorder n := by
  intro fuel
  induction fuel with
  | zero =>
    intro n p maxE hfind
    exact absurd hfind (by simp [findAux])
  | succ f ih =>
    intro n p maxE hfind hg hmem
    match n with
    | ⟨es, cs⟩ =>
      have hpes : List.Pairwise (· < ·) es := by
        simpa using goodN_elems_pairwise hg
      match hscan : scanElems elem es 0 with
      | Sum.inr i =>
        simp [findAux, hscan] at hfind
      | Sum.inl i =>
        have hnes : elem ∉ es := by
          intro hin
          obtain ⟨i2, hi2, _⟩ := scanElems_found elem es hpes hin
          rw [hscan] at hi2
          exact Sum.noConfusion hi2
        obtain ⟨hilen, hscanf⟩ := scanElems_inl_spec elem es i hpes hscan
        obtain ⟨h1, h2, h3, h4, h5⟩ := shape_components hg.1
        have hmem2 := (mem_seqInorder_iff elem es cs h4).mp (by simpa using hmem)
        rcases hmem2 with hin | ⟨j, c, hj, hc⟩
        · exact hnes hin
        · have hji : j = i := child_slot_unique hg hilen hscanf hj hc
          subst hji
          match hslot : cs[j]? with
          | some (some c2) =>
            have hcc : c2 = c := by
              rw [hslot] at hj
              exact Option.some.inj (Option.some.inj hj)
            subst hcc
            simp only [findAux, Node.elems_mk, Node.children_mk, hscan, hslot] at hfind
            exact ih c2 (j :: p) maxE hfind (goodN_child hg (by simpa using hslot)) hc
          | some none =>
            rw [hslot] at hj
            simp at hj
          | none =>
            rw [hslot] at hj
            simp at hj

/-! ### The end iterator on well-shaped trees -/

theorem endDescend_some {maxE : Nat} : ∀ (fuel : Nat) (n : Node) (p idxs : List Nat),
    sizeOf n < fuel → Shape maxE n → ∃ r, endDescend fuel n p idxs = some r := by
  intro fuel
  induction fuel with
  | zero =>
    intro n p idxs hf
    exact absurd hf (by omega)
  | succ f ih =>
    intro n p idxs hf hs
    match n with
    | ⟨es, cs⟩ =>
      obtain ⟨h1, h2, h3, h4, h5⟩ := shape_components hs
      by_cases hc : cs.length = es.length + 1
      · have hcne : cs ≠ [] := by
          intro hcon
          rw [hcon] at hc
          simp at hc
        have hlast : cs.getLast? = cs[es.length]? := by
          rw [List.getLast?_eq_getElem?, hc]
          simp
        rcases h3 with hcon | ⟨_, _, hreal⟩
        · exact absurd hcon hcne
        · match hslot : cs[es.length]? with
          | none =>
            exfalso
            have hlen2 : cs.length ≤ es.length := List.getElem?_eq_none_iff.mp hslot
            omega
          | some none =>
            rw [hlast, hslot] at hreal
            exact absurd rfl hreal
          | some (some c) =>
            have hfc : sizeOf c < f := by
              have := sizeOf_child_lt_node (n := ⟨es, cs⟩) (i := es.length)
                (by simpa using hslot)
              omega
            have hcs : Shape maxE c := by
              refine h5 _ ?_ c rfl
              exact List.mem_iff_getElem?.mpr ⟨es.length, hslot⟩
            obtain ⟨r, hr⟩ := ih c (es.length :: p) (es.length :: idxs) hfc hcs
            refine ⟨r, ?_⟩
            simp only [endDescend, Node.elems_mk, Node.children_mk, hc, if_true, hslot]
            exact hr
      · refine ⟨(⟨es, cs⟩, p, idxs), ?_⟩
        simp [endDescend, hc]

theorem end_exists {maxE : Nat} {root : Node} (fuel : Nat) (hf : sizeOf root < fuel)
    (hs : Shape maxE root) : ∃ en, end_ fuel (some root) = some en := by
  obtain ⟨r, hr⟩ := endDescend_some fuel root [] [] hf hs
  refine ⟨⟨none, (r.1.elems.length - 1) :: r.2.2, some r.2.1⟩, ?_⟩
  simp [end_, hr]

theorem end_node_none {fuel : Nat} {h : Option Node} {en : BTreeIterator}
    (he : end_ fuel h = some en) : en.node = none := by
  match h with
  | none =>
    simp [end_] at he
    rw [← he]
  | some root =>
    simp only [end_] at he
    match hr : endDescend fuel root [] [] with
    | none =>
      rw [hr] at he
      simp at he
    | some r =>
      rw [hr] at he
      simp at he
      rw [← he]

end BTreeVer

namespace BTreeVer

/-! ### Inversion and preservation lemmas for the insert descent -/

theorem padChildren_length (cs : List (Option Node)) (i : Nat) :
    (padChildren cs i).length = max (i + 1) cs.length := by
  rw [padChildren]
  by_cases hpad : cs.length ≤ i
  · simp [hpad]
    omega
  · simp [hpad]
    omega

theorem padChildren_getElem_lt (cs : List (Option Node)) (i j : Nat) (h : j < cs.length) :
    (padChildren cs i)[j]? = cs[j]? := by
  rw [padChildren]
  by_cases hpad : cs.length ≤ i
  · simp [hpad, List.getElem?_append, h]
  · simp [hpad]

theorem padChildren_seqInorder (es : List Int) (cs : List (Option Node)) (i : Nat) :
    seqInorder es (padChildren cs i) = seqInorder es cs := by
  rw [padChildren]
  by_cases hpad : cs.length ≤ i
  · simp [hpad, seqInorder_append_replicate_none]
  · simp [hpad]

theorem padChildren_mem {cs : List (Option Node)} {i : Nat} {c : Option Node}
    (h : c ∈ padChildren cs i) : c ∈ cs ∨ c = none := by
  rw [padChildren] at h
  by_cases hpad : cs.length ≤ i
  · rw [if_pos hpad] at h
    rcases List.mem_append.mp h with h2 | h2
    · exact Or.inl h2
    · exact Or.inr (List.eq_of_mem_replicate h2)
  · rw [if_neg hpad] at h
    exact Or.inl h

/-- Inverting one saturated step of the insert descent. -/
theorem insertLoop_sat {maxE : Nat} {elem : Int} {f : Nat} {es : List Int}
    {cs : List (Option Node)} {n2 : Node} {idxs : List Nat}
    (hsat : ¬ es.length < maxE)
    (h : insertLoop maxE elem (f + 1) ⟨es, cs⟩ = some (n2, idxs)) :
    ∃ (slot : Option Node) (c2 : Node) (idxs2 : List Nat),
      (padChildren cs (insScan elem es 0))[insScan elem es 0]? = some slot ∧
      insertLoop maxE elem f
        (match slot with | some c => c | none => ⟨[], []⟩) = some (c2, idxs2) ∧
      n2 = ⟨es, (padChildren cs (insScan elem es 0)).set (insScan elem es 0) (some c2)⟩ ∧
      idxs = insScan elem es 0 :: idxs2 := by
  simp only [insertLoop, Node.elems_mk, Node.children_mk, if_neg hsat] at h
  have hlt : insScan elem es 0 < (padChildren cs (insScan elem es 0)).length := by
    rw [padChildren_length]
    omega
  match hslot : (padChildren cs (insScan elem es 0))[insScan elem es 0]? with
  | none =>
    exfalso
    have := List.getElem?_eq_none_iff.mp hslot
    omega
  | some (some c) =>
    rw [hslot] at h
    match hrec : insertLoop maxE elem f c with
    | none =>
      rw [hrec] at h
      simp at h
    | some (c2, idxs2) =>
      rw [hrec] at h
      simp at h
      exact ⟨some c, c2, idxs2, rfl, hrec, h.1.symm, h.2.symm⟩
  | some none =>
    rw [hslot] at h
    match hrec : insertLoop maxE elem f ⟨[], []⟩ with
    | none =>
      rw [hrec] at h
      simp at h
    | some (c2, idxs2) =>
      rw [hrec] at h
      simp at h
      exact ⟨none, c2, idxs2, rfl, hrec, h.1.symm, h.2.symm⟩

/-- A successful insert into a fresh empty node stores just the element. -/
theorem insertLoop_fresh {maxE : Nat} {elem : Int} {f : Nat} {c2 : Node} {idxs2 : List Nat}
    (h : insertLoop maxE elem f ⟨[], []⟩ = some (c2, idxs2)) :
    c2 = ⟨[elem], []⟩ ∧ idxs2 = [0] ∧ 1 ≤ maxE := by
  match f with
  | 0 => exact absurd h (by simp [insertLoop])
  | f + 1 =>
    by_cases hm : 1 ≤ maxE
    · simp only [insertLoop, Node.elems_mk, Node.children_mk, insScan] at h
      rw [if_pos (by simpa using hm)] at h
      simp at h
      exact ⟨h.1.symm, h.2.symm, hm⟩
    · exfalso
      have hm0 : maxE = 0 := by omega
      rw [hm0, insertLoop_zero_capacity] at h
      exact Option.noConfusion h

theorem list_split_at_getElem {l : List (Option Node)} {i : Nat} {x : Option Node}
    (h : l[i]? = some x) : l = l.take i ++ x :: l.drop (i + 1) := by
  obtain ⟨hlt, hval⟩ := List.getElem?_eq_some.mp h
  have h2 := List.take_append_drop i l
  rw [List.drop_eq_getElem_cons hlt, hval] at h2
  exact h2.symm

theorem set_append_cons (cs1 cs2 : List (Option Node)) (slot x : Option Node) :
    (cs1 ++ slot :: cs2).set cs1.length x = cs1 ++ x :: cs2 := by
  induction cs1 with
  | nil => simp
  | cons a l ih => simp [ih]

theorem set_append_cons_idx (cs1 cs2 : List (Option Node)) (slot x : Option Node) (i : Nat)
    (h : cs1.length = i) : (cs1 ++ slot :: cs2).set i x = cs1 ++ x :: cs2 := by
  rw [← h]
  exact set_append_cons cs1 cs2 slot x

theorem mem_take_getElem {x : Int} {es : List Int} {i : Nat} (h : x ∈ es.take i) :
    ∃ k, k < i ∧ es[k]? = some x := by
  obtain ⟨k, hk⟩ := List.mem_iff_getElem?.mp h
  rw [List.getElem?_take] at hk
  by_cases hki : k < i
  · rw [if_pos hki] at hk
    exact ⟨k, hki, hk⟩
  · rw [if_neg hki] at hk
    exact Option.noConfusion hk

theorem mem_drop_getElem {x : Int} {es : List Int} {i : Nat} (h : x ∈ es.drop i) :
    ∃ k, i ≤ k ∧ es[k]? = some x := by
  obtain ⟨k, hk⟩ := List.mem_iff_getElem?.mp h
  rw [List.getElem?_drop] at hk
  exact ⟨i + k, by omega, hk⟩

end BTreeVer

namespace BTreeVer

theorem padChildren_getElem_some_some {cs : List (Option Node)} {i : Nat} {c : Node}
    (h : (padChildren cs i)[i]? = some (some c)) : cs[i]? = some (some c) := by
  by_cases hpad : cs.length ≤ i
  · exfalso
    rw [padChildren, if_pos hpad, List.getElem?_append_right hpad,
      List.getElem?_replicate] at h
    by_cases hlt : i - cs.length < i + 1 - cs.length
    · rw [if_pos hlt] at h
      simp at h
    · rw [if_neg hlt] at h
      exact Option.noConfusion h
  · rw [padChildren, if_neg hpad] at h
    exact h

/-- A successful run of the insert descent on a good node yields a
well-shaped node whose in-order sequence is the old one with the new
element placed at its sorted position. -/
theorem insertLoop_spec : ∀ (fuel : Nat) (n : Node) (maxE : Nat) (elem : Int)
    (n2 : Node) (idxs : List Nat),
    insertLoop maxE elem fuel n = some (n2, idxs) → GoodN maxE n →
    elem ∉ nodeInorder n →
    Shape maxE n2 ∧ ∃ L1 L2, nodeInorder n = L1 ++ L2 ∧
      nodeInorder n2 = L1 ++ elem :: L2 ∧
      (∀ x ∈ L1, x < elem) ∧ (∀ y ∈ L2, elem < y) := by
  intro fuel
  induction fuel with
  | zero =>
    intro n maxE elem n2 idxs h
    exact absurd h (by simp [insertLoop])
  | succ f ih =>
    intro n maxE elem n2 idxs h hg hmem
    match n with
    | ⟨es, cs⟩ =>
      obtain ⟨h1, h2, h3, h4, h5⟩ := shape_components hg.1
      have hpes : List.Pairwise (· < ·) es := by simpa using goodN_elems_pairwise hg
      have hnes : elem ∉ es := fun hin =>
        hmem (by simpa using @mem_of_mem_elems _ _ cs hin)
      obtain ⟨hilen, hifacts⟩ := insScan_spec elem es hpes hnes
      by_cases hsat : es.length < maxE
      · have hcs : cs = [] := by
          rcases h3 with hh | ⟨hh, _, _⟩
          · exact hh
          · omega
        subst hcs
        simp only [insertLoop, Node.elems_mk, Node.children_mk, if_pos hsat,
          List.length_nil, Nat.not_lt_zero, if_false, Option.some.injEq,
          Prod.mk.injEq] at h
        obtain ⟨hn2, hidx⟩ := h
        subst hn2
        have htd := insertIdx_eq_take_cons_drop elem (insScan elem es 0) es hilen
        refine ⟨?_, es.take (insScan elem es 0), es.drop (insScan elem es 0), ?_, ?_, ?_, ?_⟩
        · refine Shape.mk _ _ ?_ ?_ (Or.inl rfl) (by simp) ?_
          · rw [htd]
            simp
          · rw [List.length_insertIdx _ _ hilen]
            omega
          · intro c hc
            simp at hc
        · simp [List.take_append_drop]
        · simp [htd]
        · intro x hx
          obtain ⟨k, hk, hkx⟩ := mem_take_getElem hx
          exact (hifacts k x hkx).1 hk
        · intro y hy
          obtain ⟨k, hk, hky⟩ := mem_drop_getElem hy
          exact (hifacts k y hky).2 hk
      · obtain ⟨slot, c2, idxs2, hslot, hrec, hn2, hidx⟩ := insertLoop_sat hsat h
        subst hn2
        have hsat2 : es.length = maxE := by omega
        have hmax1 : 1 ≤ maxE := by
          have := List.length_pos.mpr h1
          omega
        have hpadlen : (padChildren cs (insScan elem es 0)).length ≤ es.length + 1 := by
          rw [padChildren_length]
          omega
        have hpadin : seqInorder es (padChildren cs (insScan elem es 0)) = seqInorder es cs :=
          padChildren_seqInorder es cs _
        have hpairs : List.Pairwise (· < ·)
            (seqInorder es (padChildren cs (insScan elem es 0))) := by
          rw [hpadin]
          simpa using hg.2
        obtain ⟨hA, hB⟩ := split_mem_bounds hpairs hpadlen hslot hifacts
        have hsplit := seqInorder_split_at hpadlen hslot
        have hquad : Shape maxE c2 ∧ ∃ L1p L2p, optInorder slot = L1p ++ L2p ∧
            nodeInorder c2 = L1p ++ elem :: L2p ∧
            (∀ x ∈ L1p, x < elem) ∧ (∀ y ∈ L2p, elem < y) := by
          match slot with
          | some c =>
            have hcso : cs[insScan elem es 0]? = some (some c) :=
              padChildren_getElem_some_some hslot
            have hcg : GoodN maxE c := goodN_child hg (by simpa using hcso)
            have hmc : elem ∉ nodeInorder c := by
              intro hin
              exact hmem (by
                rw [nodeInorder_mk]
                exact (mem_seqInorder_iff elem es cs h4).mpr
                  (Or.inr ⟨insScan elem es 0, c, hcso, hin⟩))
            obtain ⟨hs2, L1p, L2p, hd1, hd2, hb1, hb2⟩ := ih c maxE elem c2 idxs2 hrec hcg hmc
            exact ⟨hs2, L1p, L2p, by simpa using hd1, hd2, hb1, hb2⟩
          | none =>
            obtain ⟨hc2, _, _⟩ := insertLoop_fresh hrec
            subst hc2
            refine ⟨?_, [], [], by simp, by simp, by simp, by simp⟩
            exact Shape.mk [elem] [] (by simp) (by simpa using hmax1) (Or.inl rfl) (by simp)
              (by intro c hc; simp at hc)
        obtain ⟨hshc2, L1p, L2p, hd1, hd2, hb1, hb2⟩ := hquad
        have hilt2 : insScan elem es 0 < (padChildren cs (insScan elem es 0)).length := by
          by_contra hcon
          rw [List.getElem?_eq_none (by omega)] at hslot
          exact Option.noConfusion hslot
        have hpadsplit : padChildren cs (insScan elem es 0) =
            (padChildren cs (insScan elem es 0)).take (insScan elem es 0) ++
              slot :: (padChildren cs (insScan elem es 0)).drop (insScan elem es 0 + 1) :=
          list_split_at_getElem hslot
        have htklen : ((padChildren cs (insScan elem es 0)).take (insScan elem es 0)).length
            = insScan elem es 0 := by
          rw [List.length_take]
          omega
        have hsetsplit :
            (padChildren cs (insScan elem es 0)).set (insScan elem es 0) (some c2) =
            (padChildren cs (insScan elem es 0)).take (insScan elem es 0) ++
              some c2 :: (padChildren cs (insScan elem es 0)).drop (insScan elem es 0 + 1) := by
          conv_lhs => rw [hpadsplit]
          exact set_append_cons_idx _ _ _ _ _ htklen
        have hestd : es.take (insScan elem es 0) ++ es.drop (insScan elem es 0) = es :=
          List.take_append_drop _ es
        have htklen2 : (es.take (insScan elem es 0)).length =
            ((padChildren cs (insScan elem es 0)).take (insScan elem es 0)).length := by
          rw [List.length_take, htklen]
          omega
        have hinor2 : nodeInorder ⟨es,
            (padChildren cs (insScan elem es 0)).set (insScan elem es 0) (some c2)⟩ =
            seqInorder (es.take (insScan elem es 0))
              ((padChildren cs (insScan elem es 0)).take (insScan elem es 0)) ++
            nodeInorder c2 ++
            tailSeq (es.drop (insScan elem es 0))
              ((padChildren cs (insScan elem es 0)).drop (insScan elem es 0 + 1)) := by
          rw [nodeInorder_mk, hsetsplit]
          have hsp := seqInorder_split (es.take (insScan elem es 0))
            (es.drop (insScan elem es 0))
            ((padChildren cs (insScan elem es 0)).take (insScan elem es 0))
            ((padChildren cs (insScan elem es 0)).drop (insScan elem es 0 + 1))
            (some c2) htklen2
          rw [hestd] at hsp
          rw [hsp]
          simp
        refine ⟨?_,
          seqInorder (es.take (insScan elem es 0))
            ((padChildren cs (insScan elem es 0)).take (insScan elem es 0)) ++ L1p,
          L2p ++ tailSeq (es.drop (insScan elem es 0))
            ((padChildren cs (insScan elem es 0)).drop (insScan elem es 0 + 1)),
          ?_, ?_, ?_, ?_⟩
        · refine Shape.mk es _ h1 h2 (Or.inr ⟨hsat2, ?_, ?_⟩) ?_ ?_
          · have : ((padChildren cs (insScan elem es 0)).set (insScan elem es 0)
                (some c2)).length = (padChildren cs (insScan elem es 0)).length := by
              rw [List.length_set]
            intro hcon
            rw [hcon] at this
            simp at this
            omega
          · rw [List.getLast?_eq_getElem?, List.length_set, List.getElem?_set]
            by_cases hieq : insScan elem es 0 =
                (padChildren cs (insScan elem es 0)).length - 1
            · rw [if_pos hieq, if_pos (by omega)]
              simp
            · rw [if_neg hieq]
              by_cases hpad : cs.length ≤ insScan elem es 0
              · exfalso
                apply hieq
                rw [padChildren_length]
                omega
              · have hpeq : padChildren cs (insScan elem es 0) = cs := by
                  rw [padChildren, if_neg hpad]
                rw [hpeq]
                rcases h3 with hh | ⟨_, hcne, hlastne⟩
                · exfalso
                  rw [hh] at hpad
                  simp at hpad
                · rw [← List.getLast?_eq_getElem?]
                  exact hlastne
          · rw [List.length_set]
            exact hpadlen
          · intro c hc m hcm
            rcases List.mem_or_eq_of_mem_set hc with hc2 | hc2
            · rcases padChildren_mem hc2 with hc3 | hc3
              · exact h5 c hc3 m hcm
              · rw [hc3] at hcm
                exact Option.noConfusion hcm
            · rw [hc2] at hcm
              rw [Option.some.inj hcm] at hshc2
              exact hshc2
        · rw [nodeInorder_mk, ← hpadin, hsplit, hd1]
          simp [List.append_assoc]
        · rw [hinor2, hd2]
          simp [List.append_assoc]
        · intro x hx
          rcases List.mem_append.mp hx with hx2 | hx2
          · exact hA x hx2
          · exact hb1 x hx2
        · intro y hy
          rcases List.mem_append.mp hy with hy2 | hy2
          · exact hb2 y hy2
          · exact hB y hy2

end BTreeVer

namespace BTreeVer

/-- One `insert` call on a good tree: either the duplicate branch (tree
unchanged, iterator at the existing element, `false`), or a genuine
insertion placing the element at its sorted position. -/
theorem insert_step {fuel : Nat} {t : BTree} {elem : Int} {t2 : BTree}
    {it : BTreeIterator} {b : Bool}
    (h : insert fuel t elem = some (t2, it, b)) (hg : GoodT t) :
    GoodT t2 ∧ t2.maxNodeElems = t.maxNodeElems ∧
      ((b = false ∧ t2 = t ∧ elem ∈ inorderT t ∧ iterDeref t.head it = some elem) ∨
       (b = true ∧ elem ∉ inorderT t ∧ ∃ L1 L2, inorderT t = L1 ++ L2 ∧
         inorderT t2 = L1 ++ elem :: L2 ∧
         (∀ x ∈ L1, x < elem) ∧ (∀ y ∈ L2, elem < y))) := by
  rw [insert] at h
  match hfind : find_ fuel elem t.head with
  | none =>
    rw [hfind] at h
    exact absurd h (by simp)
  | some it0 =>
    rw [hfind] at h
    match hend : end_ fuel t.head with
    | none =>
      rw [hend] at h
      exact absurd h (by simp)
    | some e =>
      rw [hend] at h
      dsimp only at h
      by_cases hne : it0 ≠ e
      · rw [if_pos hne] at h
        simp at h
        obtain ⟨ht2, hit, hb⟩ := h
        subst ht2
        subst hit
        subst hb
        match hhead : t.head with
        | none =>
          exfalso
          rw [hhead] at hfind hend
          simp [find_, end_] at hfind hend
          rw [← hfind, ← hend] at hne
          exact hne rfl
        | some root =>
          have hgr : GoodN t.maxNodeElems root := hg root hhead
          rw [hhead, find_] at hfind
          match hfa : findAux elem fuel root [] with
          | none =>
            rw [hfa] at hfind
            exact absurd hfind (by simp)
          | some none =>
            exfalso
            rw [hfa] at hfind
            dsimp only at hfind
            rw [hhead] at hend
            rw [hfind] at hend
            exact hne (Option.some.inj hend)
          | some (some itf) =>
            rw [hfa] at hfind
            dsimp only at hfind
            have hitf : it0 = itf := (Option.some.inj hfind).symm
            subst hitf
            obtain ⟨q, i, m, hcanon, hq, hm, hmem⟩ :=
              findAux_some_some elem fuel root [] t.head t.maxNodeElems it0 hfa hgr
                (by rw [hhead]; rfl)
            refine ⟨hg, rfl, Or.inl ⟨rfl, rfl, ?_, ?_⟩⟩
            · rw [inorderT, hhead]
              exact hmem
            · rw [hcanon, iterDeref]
              dsimp only
              rw [hhead] at hq
              rw [hq]
              dsimp only
              exact hm
      · rw [if_neg hne] at h
        match hloop : insertLoop t.maxNodeElems elem fuel (t.head.getD ⟨[], []⟩) with
        | none =>
          rw [hloop] at h
          exact absurd h (by simp)
        | some (root2, idxs) =>
          rw [hloop] at h
          simp at h
          obtain ⟨ht2, hit, hb⟩ := h
          subst ht2
          subst hit
          subst hb
          match hhead : t.head with
          | none =>
            rw [hhead] at hloop
            simp at hloop
            obtain ⟨hfr, _, hm1⟩ := insertLoop_fresh hloop
            subst hfr
            refine ⟨?_, rfl, Or.inr ⟨rfl, ?_, [], [], ?_, ?_, by simp, by simp⟩⟩
            · intro r hr
              simp at hr
              rw [← hr]
              constructor
              · exact Shape.mk [elem] [] (by simp) (by simpa using hm1) (Or.inl rfl)
                  (by simp) (by intro c hc; simp at hc)
              · simp
            · rw [inorderT, hhead]
              simp
            · simp [inorderT, hhead]
            · rw [inorderT]
              simp
          | some root =>
            have hgr : GoodN t.maxNodeElems root := hg root hhead
            rw [hhead] at hloop
            simp at hloop
            have hnotmem : elem ∉ nodeInorder root := by
              rw [hhead, find_] at hfind
              match hfa : findAux elem fuel root [] with
              | none =>
                rw [hfa] at hfind
                exact absurd hfind (by simp)
              | some (some itf) =>
                exfalso
                rw [hfa] at hfind
                dsimp only at hfind
                have hitf : it0 = itf := (Option.some.inj hfind).symm
                obtain ⟨q, i, m, hcanon, _, _, _⟩ :=
                  findAux_some_some elem fuel root [] t.head t.maxNodeElems itf hfa hgr
                    (by rw [hhead]; rfl)
                have heq : it0 = e := by
                  by_contra hcon
                  exact hne hcon
                have hnn := end_node_none hend
                rw [← heq, hitf, hcanon] at hnn
                simp at hnn
              | some none =>
                exact findAux_some_none elem fuel root [] t.maxNodeElems hfa hgr
            obtain ⟨hsh2, L1, L2, hd1, hd2, hb1, hb2⟩ :=
              insertLoop_spec fuel root t.maxNodeElems elem root2 idxs hloop hgr hnotmem
            refine ⟨?_, rfl, Or.inr ⟨rfl, ?_, L1, L2, ?_, ?_, hb1, hb2⟩⟩
            · intro r hr
              simp at hr
              rw [← hr]
              refine ⟨hsh2, ?_⟩
              rw [hd2]
              refine pairwise_insert_middle ?_ hb1 hb2
              rw [← hd1]
              exact hgr.2
            · rw [inorderT, hhead]
              exact hnotmem
            · rw [inorderT, hhead]
              exact hd1
            · rw [inorderT]
              dsimp only
              exact hd2

theorem buildAux_spec : ∀ (xs : List Int) (fuel : Nat) (t0 t : BTree),
    GoodT t0 →
    xs.foldlM (fun u e => (insert fuel u e).map Prod.fst) t0 = some t →
    GoodT t ∧ t.maxNodeElems = t0.maxNodeElems ∧
      (∀ x, x ∈ inorderT t ↔ x ∈ xs ∨ x ∈ inorderT t0) := by
  intro xs
  induction xs with
  | nil =>
    intro fuel t0 t hg h
    simp [List.foldlM] at h
    rw [← h]
    exact ⟨hg, rfl, by simp⟩
  | cons e xs ih =>
    intro fuel t0 t hg h
    rw [List.foldlM_cons] at h
    match hins : insert fuel t0 e with
    | none =>
      rw [hins] at h
      simp at h
    | some (t1, it1, b1) =>
      rw [hins] at h
      simp only [Option.map_some', Option.some_bind] at h
      obtain ⟨hg1, hmax1, hdisj⟩ := insert_step hins hg
      obtain ⟨hgt, hmax, hmm⟩ := ih fuel t1 t hg1 h
      refine ⟨hgt, by rw [hmax, hmax1], ?_⟩
      intro x
      rw [hmm x]
      have hstep : x ∈ inorderT t1 ↔ x = e ∨ x ∈ inorderT t0 := by
        rcases hdisj with ⟨_, ht2, hmem, _⟩ | ⟨_, hnot, L1, L2, hd1, hd2, _, _⟩
        · rw [ht2]
          constructor
          · exact Or.inr
          · rintro (rfl | hx)
            · exact hmem
            · exact hx
        · rw [hd2, hd1]
          simp only [List.mem_append, List.mem_cons]
          constructor
          · rintro (hx | rfl | hx)
            · exact Or.inr (Or.inl hx)
            · exact Or.inl rfl
            · exact Or.inr (Or.inr hx)
          · rintro (rfl | hx | hx)
            · exact Or.inr (Or.inl rfl)
            · exact Or.inl hx
            · exact Or.inr (Or.inr hx)
      constructor
      · rintro (hx | hx)
        · exact Or.inl (by simp [hx])
        · rcases hstep.mp hx with rfl | hx2
          · exact Or.inl (by simp)
          · exact Or.inr hx2
      · rintro (hx | hx)
        · rcases List.mem_cons.mp hx with rfl | hx2
          · exact Or.inr (hstep.mpr (Or.inl rfl))
          · exact Or.inl hx2
        · exact Or.inr (hstep.mpr (Or.inr hx))

theorem buildTree_spec {maxE fuel : Nat} {xs : List Int} {t : BTree}
    (h : buildTree maxE fuel xs = some t) :
    GoodT t ∧ t.maxNodeElems = maxE ∧ (∀ x, x ∈ inorderT t ↔ x ∈ xs) := by
  rw [buildTree] at h
  have hg0 : GoodT (btreeNew maxE) := by
    intro r hr
    simp [btreeNew] at hr
  obtain ⟨hgt, hmax, hmm⟩ := buildAux_spec xs fuel (btreeNew maxE) t hg0 h
  refine ⟨hgt, by simpa [btreeNew] using hmax, ?_⟩
  intro x
  rw [hmm x]
  simp [inorderT, btreeNew]

end BTreeVer

namespace BTreeVer

/-- The tree from the spec scenario: capacity 2, inserts 3, 5, 1, 4, 6, 2. -/
def sampleRoot : Node :=
  ⟨[3, 5], [some ⟨[1, 2], []⟩, some ⟨[4], []⟩, some ⟨[6], []⟩]⟩

def sampleTree : BTree := ⟨some sampleRoot, 2⟩

/-- C2: find consistency.  For every tree built by inserts and every
element `e` that was inserted, `find(e)` succeeds (for sufficient fuel),
the returned iterator dereferences to `e` and differs from every `end()`
value; for every `e` never inserted, `find(e)` returns exactly the value
of `end()`. -/
theorem c2_find_consistency (maxE fuel : Nat) (xs : List Int) (t : BTree) (e : Int)
    (hb : buildTree maxE fuel xs = some t) :
    (e ∈ xs →
      ∃ (f2 : Nat) (it : BTreeIterator), find_ f2 e t.head = some it ∧
        iterDeref t.head it = some e ∧
        ∀ (f3 : Nat) (en : BTreeIterator), end_ f3 t.head = some en → it ≠ en) ∧
    (e ∉ xs →
      ∃ f2 : Nat, ∀ f3 : Nat, f2 ≤ f3 → find_ f3 e t.head = end_ f3 t.head) := by
  obtain ⟨hg, hmax, hmm⟩ := buildTree_spec hb
  constructor
  · intro he
    have hmem : e ∈ inorderT t := (hmm e).mpr he
    match hhead : t.head with
    | none =>
      exfalso
      simp [inorderT, hhead] at hmem
    | some root =>
      have hgr : GoodN t.maxNodeElems root := hg root hhead
      obtain ⟨q, i, m, hfa, hq, hm⟩ := findAux_found e (sizeOf root + 1) root [] t.head
        t.maxNodeElems (by omega) hgr (by rw [hhead]; rfl)
        (by simpa [inorderT, hhead] using hmem)
      refine ⟨sizeOf root + 1, ⟨some q, i :: q, none⟩, ?_, ?_, ?_⟩
      · rw [find_, hfa]
      · rw [iterDeref]
        dsimp only
        rw [hhead] at hq
        rw [hq]
        exact hm
      · intro f3 en hen
        have hn := end_node_none hen
        intro hcontra
        rw [← hcontra] at hn
        simp at hn
  · intro hne
    have hmem : e ∉ inorderT t := fun hx => hne ((hmm e).mp hx)
    match hhead : t.head with
    | none => exact ⟨0, fun f3 _ => rfl⟩
    | some root =>
      have hgr : GoodN t.maxNodeElems root := hg root hhead
      refine ⟨sizeOf root + 1, fun f3 hf3 => ?_⟩
      have hfa := findAux_notfound e f3 root [] t.maxNodeElems (by omega) hgr
        (by intro hx; exact hmem (by simpa [inorderT, hhead] using hx))
      rw [find_, hfa]

/-- C2 witness: in the spec-scenario tree (capacity 2, inserts
3, 5, 1, 4, 6, 2), `find(4)` succeeds with an iterator at 4 and differs
from `end()`, and `find(9)` equals `end()`. -/
theorem c2_witness :
    (∃ (f2 : Nat) (it : BTreeIterator), find_ f2 4 sampleTree.head = some it ∧
       iterDeref sampleTree.head it = some 4 ∧
       ∀ (f3 : Nat) (en : BTreeIterator), end_ f3 sampleTree.head = some en → it ≠ en) ∧
    (∃ f2 : Nat, ∀ f3 : Nat, f2 ≤ f3 →
       find_ f3 9 sampleTree.head = end_ f3 sampleTree.head) :=
  ⟨(c2_find_consistency 2 20 [3, 5, 1, 4, 6, 2] sampleTree 4 (by rfl)).1 (by decide),
   (c2_find_consistency 2 20 [3, 5, 1, 4, 6, 2] sampleTree 9 (by rfl)).2 (by decide)⟩

/-- C4: inserting an element already present returns the find iterator
(positioned at the matching element) with `false`, leaves the tree value —
hence the traversal sequence — unchanged, and such a call does succeed
(for sufficient fuel). -/
theorem c4_insert_duplicate (maxE fuel : Nat) (xs : List Int) (t : BTree) (e : Int)
    (hb : buildTree maxE fuel xs = some t) (he : e ∈ xs) :
    (∀ (f2 : Nat) (t2 : BTree) (it : BTreeIterator) (bl : Bool),
      insert f2 t e = some (t2, it, bl) →
      bl = false ∧ t2 = t ∧ inorderT t2 = inorderT t ∧
        iterDeref t.head it = some e) ∧
    ∃ (f2 : Nat) (res : BTree × BTreeIterator × Bool), insert f2 t e = some res := by
  obtain ⟨hg, hmax, hmm⟩ := buildTree_spec hb
  have hmem : e ∈ inorderT t := (hmm e).mpr he
  constructor
  · intro f2 t2 it bl hins
    obtain ⟨hg2, hmax2, hdisj⟩ := insert_step hins hg
    rcases hdisj with ⟨hbf, ht2, _, hderef⟩ | ⟨_, hnot, _⟩
    · exact ⟨hbf, ht2, by rw [ht2], hderef⟩
    · exact absurd hmem hnot
  · match hhead : t.head with
    | none =>
      exfalso
      simp [inorderT, hhead] at hmem
    | some root =>
      have hgr := hg root hhead
      obtain ⟨q, i, m, hfa, hq, hm⟩ := findAux_found e (sizeOf root + 1) root [] t.head
        t.maxNodeElems (by omega) hgr (by rw [hhead]; rfl)
        (by simpa [inorderT, hhead] using hmem)
      obtain ⟨en, hen⟩ := end_exists (sizeOf root + 1) (by omega) hgr.1
      have hfind2 : find_ (sizeOf root + 1) e t.head = some ⟨some q, i :: q, none⟩ := by
        rw [hhead, find_, hfa]
      have hen2 : end_ (sizeOf root + 1) t.head = some en := by
        rw [hhead]
        exact hen
      have hneq : (⟨some q, i :: q, none⟩ : BTreeIterator) ≠ en := by
        intro hcon
        have hn := end_node_none hen2
        rw [← hcon] at hn
        simp at hn
      refine ⟨sizeOf root + 1, (t, ⟨some q, i :: q, none⟩, false), ?_⟩
      rw [insert, hfind2, hen2]
      dsimp only
      rw [if_pos hneq]

/-- C4 witness: inserting the already present 4 into the spec-scenario
tree. -/
theorem c4_witness :
    (∀ (f2 : Nat) (t2 : BTree) (it : BTreeIterator) (bl : Bool),
      insert f2 sampleTree 4 = some (t2, it, bl) →
      bl = false ∧ t2 = sampleTree ∧ inorderT t2 = inorderT sampleTree ∧
        iterDeref sampleTree.head it = some 4) ∧
    ∃ (f2 : Nat) (res : BTree × BTreeIterator × Bool),
      insert f2 sampleTree 4 = some res :=
  c4_insert_duplicate 2 20 [3, 5, 1, 4, 6, 2] sampleTree 4 (by rfl) (by decide)

/-- The per-node property asserted by claim C10. -/
inductive C10Shape (maxE : Nat) : Node → Prop
  | mk : ∀ (es : List Int) (cs : List (Option Node)),
      (es.length < maxE → cs = []) →
      cs.length ≤ es.length + 1 →
      (cs.length = es.length + 1 → ∃ m : Node, cs[es.length]? = some (some m)) →
      (∀ c ∈ cs, ∀ m : Node, c = some m → C10Shape maxE m) →
      C10Shape maxE ⟨es, cs⟩

theorem shape_c10 {maxE : Nat} : ∀ {n : Node}, Shape maxE n → C10Shape maxE n := by
  intro n h
  induction h with
  | mk es cs h1 h2 h3 h4 h5 ih =>
    refine C10Shape.mk es cs ?_ h4 ?_ ih
    · intro hlt
      rcases h3 with hh | ⟨hh, _, _⟩
      · exact hh
      · omega
    · intro hlen
      rcases h3 with hh | ⟨_, hcne, hlast⟩
      · rw [hh] at hlen
        simp at hlen
      · have hge : cs.getLast? = cs[es.length]? := by
          rw [List.getLast?_eq_getElem?, hlen]
          simp
        match hsl : cs[es.length]? with
        | none =>
          exfalso
          have := List.getElem?_eq_none_iff.mp hsl
          omega
        | some none =>
          exfalso
          rw [hge, hsl] at hlast
          exact hlast rfl
        | some (some m) => exact ⟨m, rfl⟩

/-- The per-node property asserted by the amended claim C5. -/
inductive C5Shape : Node → Prop
  | mk : ∀ (es : List Int) (cs : List (Option Node)),
      (cs = [] ∨ (1 ≤ cs.length ∧ cs.length ≤ es.length + 1 ∧ cs.getLast? ≠ some none)) →
      (∀ c ∈ cs, ∀ m : Node, c = some m → C5Shape m) → C5Shape ⟨es, cs⟩

theorem shape_c5 {maxE : Nat} : ∀ {n : Node}, Shape maxE n → C5Shape n := by
  intro n h
  induction h with
  | mk es cs h1 h2 h3 h4 h5 ih =>
    refine C5Shape.mk es cs ?_ ih
    rcases h3 with hh | ⟨_, hcne, hlast⟩
    · exact Or.inl hh
    · refine Or.inr ⟨?_, h4, hlast⟩
      have := List.length_pos.mpr hcne
      omega

/-- C10: on every tree built by inserts with capacity at least 1, every
node below capacity has no children, every node has at most
`elems.size() + 1` child slots, and a full-width child sequence has a real
node in its last slot. -/
theorem c10_shape_invariant (maxE fuel : Nat) (xs : List Int) (t : BTree) (r : Node)
    (h1 : 1 ≤ maxE) (hb : buildTree maxE fuel xs = some t) (hr : t.head = some r) :
    C10Shape maxE r := by
  obtain ⟨hg, hmax, _⟩ := buildTree_spec hb
  have hgr := hg r hr
  rw [hmax] at hgr
  exact shape_c10 hgr.1

/-- C10 witness: the spec-scenario tree. -/
theorem c10_witness : C10Shape 2 sampleRoot :=
  c10_shape_invariant 2 20 [3, 5, 1, 4, 6, 2] sampleTree sampleRoot (by decide)
    (by rfl) rfl

/-- C5 (amended): on every tree built by inserts, each node's children
sequence is either empty or has between 1 and `elems.size() + 1` slots
(not always exactly `elems.size() + 1`), with the last slot holding a real
node; the null-slot insertion in the non-saturated insert branch happens
only when the children sequence is nonempty, which never occurs for
reachable nodes. -/
theorem c5_amended_children_shape (maxE fuel : Nat) (xs : List Int) (t : BTree) (r : Node)
    (hb : buildTree maxE fuel xs = some t) (hr : t.head = some r) : C5Shape r := by
  obtain ⟨hg, hmax, _⟩ := buildTree_spec hb
  exact shape_c5 (hg r hr).1

/-- C5 amended witness: the tree built with capacity 1 by inserting 2
then 1 (the counterexample tree itself satisfies the amended shape). -/
theorem c5_amended_witness : C5Shape ⟨[2], [some ⟨[1], []⟩]⟩ :=
  c5_amended_children_shape 1 20 [2, 1] ⟨some ⟨[2], [some ⟨[1], []⟩]⟩, 1⟩
    ⟨[2], [some ⟨[1], []⟩]⟩ (by rfl) rfl

end BTreeVer

namespace BTreeVer

/-! ### Machinery for claim C1: the begin-to-end walk is the in-order
traversal.  Positions of a subtree are listed by `posesSeq`; the chain of
`IncStep` steps over them mirrors `operator++`. -/

@[simp] theorem posesOpt_none (p : List Nat) : posesOpt none p = [] := by rw [posesOpt]

@[simp] theorem posesOpt_some (n : Node) (p : List Nat) : posesOpt (some n) p = posesN n p := by
  rw [posesOpt]

@[simp] theorem posesN_mk (es : List Int) (cs : List (Option Node)) (p : List Nat) :
    posesN ⟨es, cs⟩ p = posesSeq es cs p 0 := by rw [posesN]

@[simp] theorem posesSeq_nil_nil (p : List Nat) (i : Nat) : posesSeq [] [] p i = [] := by
  rw [posesSeq]

@[simp] theorem posesSeq_nil_cons (c : Option Node) (cs : List (Option Node)) (p : List Nat)
    (i : Nat) : posesSeq [] (c :: cs) p i = posesOpt c (i :: p) := by rw [posesSeq]

@[simp] theorem posesSeq_cons_nil (e : Int) (es : List Int) (p : List Nat) (i : Nat) :
    posesSeq (e :: es) [] p i = (p, i, e) :: posesSeq es [] p (i + 1) := by rw [posesSeq]

@[simp] theorem posesSeq_cons_cons (e : Int) (es : List Int) (c : Option Node)
    (cs : List (Option Node)) (p : List Nat) (i : Nat) :
    posesSeq (e :: es) (c :: cs) p i =
      posesOpt c (i :: p) ++ (p, i, e) :: posesSeq es cs p (i + 1) := by rw [posesSeq]

theorem incAscend_stop {h : Option Node} {o1 o2 : List Nat} {ep : Option (List Nat)}
    {p : List Nat} {i : Nat} {rest : List Nat} {n : Node}
    (hq : nodeAtO h p = some n) (hi : i ≠ n.elems.length) :
    incAscend h o1 o2 ep p (i :: rest) = some ⟨some p, i :: rest, ep⟩ := by
  cases p with
  | nil =>
    rw [incAscend, hq]
    dsimp only
    rw [if_neg hi]
  | cons j p2 =>
    rw [incAscend, hq]
    dsimp only
    rw [if_neg hi]

theorem incAscend_pop {h : Option Node} {o1 o2 : List Nat} {ep : Option (List Nat)}
    {j : Nat} {p2 : List Nat} {i : Nat} {rest : List Nat} {n : Node}
    (hq : nodeAtO h (j :: p2) = some n) (hi : i = n.elems.length) :
    incAscend h o1 o2 ep (j :: p2) (i :: rest) = incAscend h o1 o2 ep p2 rest := by
  rw [incAscend, hq]
  dsimp only
  rw [if_pos hi]

theorem incAscend_exit {h : Option Node} {o1 o2 : List Nat} {ep : Option (List Nat)}
    {i : Nat} {rest : List Nat} {n : Node}
    (hq : nodeAtO h [] = some n) (hi : i = n.elems.length) :
    incAscend h o1 o2 ep [] (i :: rest) = some ⟨none, o2, some o1⟩ := by
  rw [incAscend, hq]
  dsimp only
  rw [if_pos hi]

theorem iterInc_enter {f : Nat} {h : Option Node} {q : List Nat} {i : Nat} {rest : List Nat}
    {ep : Option (List Nat)} {n c : Node}
    (hq : nodeAtO h q = some n) (hc : n.children[i + 1]? = some (some c)) :
    iterInc f h ⟨some q, i :: rest, ep⟩ =
      (leftDescend f c ((i + 1) :: q) (0 :: (i + 1) :: rest)).map fun r =>
        ⟨some r.1, r.2, ep⟩ := by
  rw [iterInc]
  dsimp only
  rw [hq]
  dsimp only
  rw [hc]

theorem iterInc_ascend {f : Nat} {h : Option Node} {q : List Nat} {i : Nat} {rest : List Nat}
    {ep : Option (List Nat)} {n : Node}
    (hq : nodeAtO h q = some n)
    (hc : n.children[i + 1]? = none ∨ n.children[i + 1]? = some none) :
    iterInc f h ⟨some q, i :: rest, ep⟩ = incAscend h q (i :: rest) ep q ((i + 1) :: rest) := by
  rw [iterInc]
  dsimp only
  rw [hq]
  dsimp only
  rcases hc with hc | hc <;> rw [hc]

theorem leftDescend_enter {f : Nat} {n : Node} {q idxs : List Nat} {c : Node}
    (hc : n.children.head? = some (some c)) :
    leftDescend (f + 1) n q idxs = leftDescend f c (0 :: q) (0 :: idxs) := by
  rw [leftDescend, hc]

theorem leftDescend_stop {f : Nat} {n : Node} {q idxs : List Nat}
    (hc : n.children.head? = none ∨ n.children.head? = some none) :
    leftDescend (f + 1) n q idxs = some (q, idxs) := by
  rw [leftDescend]
  rcases hc with hc | hc <;> rw [hc]

theorem endDescend_stop {f : Nat} {n : Node} {q idxs : List Nat}
    (hc : n.children.length ≠ n.elems.length + 1) :
    endDescend (f + 1) n q idxs = some (n, q, idxs) := by
  rw [endDescend, if_neg hc]

theorem endDescend_enter {f : Nat} {n : Node} {q idxs : List Nat} {c : Node}
    (hlen : n.children.length = n.elems.length + 1)
    (hc : n.children[n.elems.length]? = some (some c)) :
    endDescend (f + 1) n q idxs =
      endDescend f c (n.elems.length :: q) (n.elems.length :: idxs) := by
  rw [endDescend, if_pos hlen, hc]

theorem getLast_append_of {α : Type} {A l : List α} (h : l ≠ []) :
    (A ++ l).getLast? = l.getLast? := by
  rw [List.getLast?_append, List.getLast?_eq_getLast l h]
  rfl

theorem head_append_of {α : Type} {l1 l2 : List α} (h : l1 ≠ []) :
    (l1 ++ l2).head? = l1.head? := by
  match l1 with
  | [] => exact absurd rfl h
  | x :: t => simp

theorem posesSeq_ne_nil {es : List Int} {cs : List (Option Node)} {p : List Nat} {i : Nat}
    (hne : es ≠ []) : posesSeq es cs p i ≠ [] := by
  match es with
  | [] => exact absurd rfl hne
  | e :: es =>
    match cs with
    | [] => simp
    | c :: cs => simp

theorem rep_zero_cons (k : Nat) (l : List Nat) :
    List.replicate k 0 ++ 0 :: l = 0 :: (List.replicate k 0 ++ l) := by
  rw [show (0 : Nat) :: (List.replicate k 0 ++ l) = (0 :: List.replicate k 0) ++ l from rfl,
    ← List.replicate_succ, List.replicate_succ', List.append_assoc]
  rfl

theorem drop_cons_succ {α : Type} {l : List α} {i : Nat} {x : α} {t : List α}
    (h : l.drop i = x :: t) : l.drop (i + 1) = t := by
  have h2 : (l.drop i).drop 1 = l.drop (i + 1) := by
    rw [List.drop_drop]
  rw [h] at h2
  simpa using h2.symm

theorem drop_cons_getElem {α : Type} {l : List α} {i : Nat} {x : α} {t : List α}
    (h : l.drop i = x :: t) : l[i]? = some x := by
  have h2 : (l.drop i)[0]? = l[i + 0]? := List.getElem?_drop l i 0
  rw [h] at h2
  simpa using h2.symm

theorem drop_length_le {α : Type} {l : List α} {i : Nat} (h : l.drop i = []) :
    l.length ≤ i := by
  have := congrArg List.length h
  simp at this
  omega

theorem drop_length_eq {α : Type} {l : List α} {i : Nat} {x : α} {t : List α}
    (h : l.drop i = x :: t) : l.length = i + 1 + t.length := by
  have := congrArg List.length h
  simp at this
  omega

theorem iterDeref_canon {h : Option Node} {q : List Nat} {i : Nat} {e : Int} {m : Node}
    (hq : nodeAtO h q = some m) (he : m.elems[i]? = some e) :
    iterDeref h (canon (q, i, e)) = some e := by
  rw [iterDeref]
  dsimp only [canon]
  rw [hq]
  exact he

theorem shape_full_width_last {maxE : Nat} {ES : List Int} {CS : List (Option Node)}
    (hs : Shape maxE ⟨ES, CS⟩) (hlen : CS.length = ES.length + 1) :
    ∃ m : Node, CS[ES.length]? = some (some m) := by
  obtain ⟨h1, h2, h3, h4, h5⟩ := shape_components hs
  rcases h3 with hh | ⟨_, _, hlast⟩
  · rw [hh] at hlen
    simp at hlen
  · have hge : CS.getLast? = CS[ES.length]? := by
      rw [List.getLast?_eq_getElem? CS, hlen]
      simp
    match hsl : CS[ES.length]? with
    | none =>
      exfalso
      have := List.getElem?_eq_none_iff.mp hsl
      omega
    | some none =>
      exfalso
      rw [hge, hsl] at hlast
      exact hlast rfl
    | some (some m) => exact ⟨m, rfl⟩

theorem drop_last_slot {maxE : Nat} {ES : List Int} {CS : List (Option Node)} {i : Nat}
    {c : Option Node}
    (hs : Shape maxE ⟨ES, CS⟩) (hES : ES.drop i = []) (hCS : CS.drop i = [c]) :
    ∃ m : Node, c = some m ∧ CS[i]? = some (some m) ∧ i = ES.length ∧
      CS.length = ES.length + 1 := by
  obtain ⟨h1, h2, h3, h4, h5⟩ := shape_components hs
  have hElen : ES.length ≤ i := drop_length_le hES
  have hClen : CS.length = i + 1 := by simpa using drop_length_eq hCS
  have hieq : i = ES.length := by omega
  have hfull : CS.length = ES.length + 1 := by omega
  obtain ⟨m, hm⟩ := shape_full_width_last hs hfull
  have hci : CS[i]? = some c := drop_cons_getElem hCS
  rw [hieq] at hci
  rw [hm] at hci
  exact ⟨m, by injection hci with hh; exact hh.symm, by rw [hieq]; exact hm, hieq, hfull⟩

theorem posesSeq_nil_values : ∀ (es : List Int) (p : List Nat) (i : Nat),
    (posesSeq es [] p i).map (fun u => u.2.2) = es := by
  intro es
  induction es with
  | nil => intro p i; simp
  | cons e es ih =>
    intro p i
    rw [posesSeq_cons_nil]
    simp only [List.map_cons, ih]

theorem poses_values : ∀ (N : Nat) (cs : List (Option Node)) (es : List Int)
    (p : List Nat) (i : Nat), sizeOf cs < N →
    (posesSeq es cs p i).map (fun u => u.2.2) = seqInorder es cs := by
  intro N
  induction N with
  | zero =>
    intro cs es p i hlt
    omega
  | succ N ih =>
    intro cs es p i hlt
    match es, cs with
    | es, [] => rw [posesSeq_nil_values, seqInorder_nil_children]
    | [], c :: cs2 =>
      rw [posesSeq_nil_cons, seqInorder_nil_cons]
      match c with
      | none => simp
      | some ⟨es2, cs3⟩ =>
        rw [posesOpt_some, posesN_mk, optInorder_some, nodeInorder_mk]
        refine ih cs3 es2 (i :: p) 0 ?_
        have h1 : sizeOf (some (Node.mk es2 cs3) :: cs2) =
            1 + sizeOf (some (Node.mk es2 cs3)) + sizeOf cs2 := by simp
        have h2 : sizeOf (some (Node.mk es2 cs3)) = 1 + sizeOf (Node.mk es2 cs3) := by simp
        have h3 : sizeOf (Node.mk es2 cs3) = 1 + sizeOf es2 + sizeOf cs3 := by simp
        omega
    | e :: es2, c :: cs2 =>
      rw [posesSeq_cons_cons, seqInorder_cons_cons]
      rw [List.map_append, List.map_cons]
      have htail : (posesSeq es2 cs2 p (i + 1)).map (fun u => u.2.2) = seqInorder es2 cs2 := by
        refine ih cs2 es2 p (i + 1) ?_
        have h1 : sizeOf (c :: cs2) = 1 + sizeOf c + sizeOf cs2 := by simp
        have h2 : 0 < sizeOf c := by
          match c with
          | none => simp
          | some m =>
            have h2 : sizeOf (some m) = 1 + sizeOf m := by simp
            omega
        omega
      rw [htail]
      match c with
      | none => simp
      | some ⟨es3, cs3⟩ =>
        rw [posesOpt_some, posesN_mk, optInorder_some, nodeInorder_mk]
        have hchild : (posesSeq es3 cs3 (i :: p) 0).map (fun u => u.2.2) =
            seqInorder es3 cs3 := by
          refine ih cs3 es3 (i :: p) 0 ?_
          have h1 : sizeOf (some (Node.mk es3 cs3) :: cs2) =
              1 + sizeOf (some (Node.mk es3 cs3)) + sizeOf cs2 := by simp
          have h2 : sizeOf (some (Node.mk es3 cs3)) = 1 + sizeOf (Node.mk es3 cs3) := by simp
          have h3 : sizeOf (Node.mk es3 cs3) = 1 + sizeOf es3 + sizeOf cs3 := by simp
          omega
        rw [hchild]


theorem posesSeq_last_elem : ∀ (es : List Int) (cs : List (Option Node)) (p : List Nat)
    (i : Nat) (eL : Int), es.getLast? = some eL → cs.length ≤ es.length →
    (posesSeq es cs p i).getLast? = some (p, i + es.length - 1, eL) := by
  intro es
  induction es with
  | nil =>
    intro cs p i eL heL hlen
    simp at heL
  | cons e es ih =>
    intro cs p i eL heL hlen
    match es with
    | [] =>
      have heq : e = eL := by simpa using heL
      subst heq
      match cs with
      | [] =>
        rw [posesSeq_cons_nil, posesSeq_nil_nil]
        simp
      | [c] =>
        rw [posesSeq_cons_cons, posesSeq_nil_nil]
        rw [getLast_append_of (by simp)]
        simp
      | c :: c2 :: cs2 => simp at hlen
    | e2 :: es2 =>
      have heL2 : (e2 :: es2).getLast? = some eL := by
        rw [← heL, List.getLast?_cons_cons]
      match cs with
      | [] =>
        rw [posesSeq_cons_nil]
        have h2 := ih [] p (i + 1) eL heL2 (by simp)
        rw [show ((p, i, e) :: posesSeq (e2 :: es2) [] p (i + 1) : List Pos) =
          [(p, i, e)] ++ posesSeq (e2 :: es2) [] p (i + 1) from rfl]
        rw [getLast_append_of (posesSeq_ne_nil (by simp))]
        rw [h2]
        have harith : i + 1 + (e2 :: es2).length - 1 = i + (e :: e2 :: es2).length - 1 := by
          simp only [List.length_cons]
          omega
        rw [harith]
      | c :: cs2 =>
        rw [posesSeq_cons_cons]
        have hlen2 : cs2.length ≤ (e2 :: es2).length := by simpa using hlen
        have h2 := ih cs2 p (i + 1) eL heL2 hlen2
        rw [getLast_append_of (by simp)]
        rw [show ((p, i, e) :: posesSeq (e2 :: es2) cs2 p (i + 1) : List Pos) =
          [(p, i, e)] ++ posesSeq (e2 :: es2) cs2 p (i + 1) from rfl]
        rw [getLast_append_of (posesSeq_ne_nil (by simp))]
        rw [h2]
        have harith : i + 1 + (e2 :: es2).length - 1 = i + (e :: e2 :: es2).length - 1 := by
          simp only [List.length_cons]
          omega
        rw [harith]

theorem posesSeq_last_child : ∀ (es : List Int) (cs : List (Option Node)) (p : List Nat)
    (i : Nat) (cl : Option Node), cs.length = es.length + 1 → cs.getLast? = some cl →
    posesOpt cl ((i + es.length) :: p) ≠ [] →
    (posesSeq es cs p i).getLast? = (posesOpt cl ((i + es.length) :: p)).getLast? := by
  intro es
  induction es with
  | nil =>
    intro cs p i cl hlen hcl hne
    match cs with
    | [] => simp at hlen
    | [c] =>
      have heq : c = cl := by simpa using hcl
      subst heq
      rw [posesSeq_nil_cons]
      simp
    | c :: c2 :: cs2 => simp at hlen
  | cons e es ih =>
    intro cs p i cl hlen hcl hne
    match cs with
    | [] => simp at hlen
    | c :: cs2 =>
      have hlen2 : cs2.length = es.length + 1 := by simpa using hlen
      have hcs2ne : cs2 ≠ [] := by
        intro hx
        rw [hx] at hlen2
        simp at hlen2
      have hcl2 : cs2.getLast? = some cl := by
        rw [← hcl, show (c :: cs2 : List (Option Node)) = [c] ++ cs2 from rfl,
          getLast_append_of hcs2ne]
      have harith : i + 1 + es.length = i + (e :: es).length := by
        simp only [List.length_cons]
        omega
      have hne2 : posesOpt cl ((i + 1 + es.length) :: p) ≠ [] := by
        rw [harith]
        exact hne
      have h2 := ih cs2 p (i + 1) cl hlen2 hcl2 hne2
      rw [posesSeq_cons_cons]
      have hS2ne : posesSeq es cs2 p (i + 1) ≠ [] := by
        match es, cs2 with
        | [], [] => exact absurd rfl hcs2ne
        | [], c2 :: cs3 =>
          rw [posesSeq_nil_cons]
          have hcs3 : cs3 = [] := by
            have := hlen2
            simp only [List.length_cons, List.length_nil] at this
            exact List.length_eq_zero.mp (by omega)
          subst hcs3
          have hc2 : c2 = cl := by simpa using hcl2
          subst hc2
          simpa using hne2
        | e2 :: es2, cs2 => exact posesSeq_ne_nil (by simp)
      rw [getLast_append_of (by simp)]
      rw [show ((p, i, e) :: posesSeq es cs2 p (i + 1) : List Pos) =
        [(p, i, e)] ++ posesSeq es cs2 p (i + 1) from rfl]
      rw [getLast_append_of hS2ne]
      rw [h2, harith]

theorem leftDescend_first {maxE : Nat} {h : Option Node} : ∀ (N : Nat) (n : Node),
    sizeOf n < N → Shape maxE n → ∀ p : List Nat, nodeAtO h p = some n →
    ∃ (k : Nat) (e0 : Int),
      (posesN n p).head? = some (List.replicate k 0 ++ p, 0, e0) ∧
      ∀ f : Nat, sizeOf n ≤ f → ∀ q idxs : List Nat,
        leftDescend f n q idxs =
          some (List.replicate k 0 ++ q, List.replicate k 0 ++ idxs) := by
  intro N
  induction N with
  | zero =>
    intro n hn
    omega
  | succ N ih =>
    intro n hn hs p hp
    match n with
    | ⟨ES, CS⟩ =>
      obtain ⟨h1, h2, h3, h4, h5⟩ := shape_components hs
      match ES with
      | [] => exact absurd rfl h1
      | e :: ES2 =>
        match CS with
        | [] =>
          refine ⟨0, e, ?_, ?_⟩
          · rw [posesN_mk, posesSeq_cons_nil]
            simp
          · intro f hf q idxs
            match f with
            | 0 =>
              have := node_sizeOf_pos ⟨e :: ES2, ([] : List (Option Node))⟩
              omega
            | f + 1 =>
              rw [leftDescend_stop (Or.inl (by simp))]
              simp
        | none :: CS2 =>
          refine ⟨0, e, ?_, ?_⟩
          · rw [posesN_mk, posesSeq_cons_cons, posesOpt_none]
            simp
          · intro f hf q idxs
            match f with
            | 0 =>
              have := node_sizeOf_pos ⟨e :: ES2, none :: CS2⟩
              omega
            | f + 1 =>
              rw [leftDescend_stop (Or.inr (by simp))]
              simp
        | some m1 :: CS2 =>
          have hm1 : Shape maxE m1 := h5 (some m1) (by simp) m1 rfl
          have hm1sz : sizeOf m1 < sizeOf (Node.mk (e :: ES2) (some m1 :: CS2)) :=
            sizeOf_child_lt_node (n := ⟨e :: ES2, some m1 :: CS2⟩) (i := 0) (by simp)
          have hres1 : nodeAtO h (0 :: p) = some m1 := nodeAtO_child hp (by simp)
          obtain ⟨k1, e0, hhead1, hld1⟩ := ih m1 (by omega) hm1 (0 :: p) hres1
          refine ⟨k1 + 1, e0, ?_, ?_⟩
          · rw [posesN_mk, posesSeq_cons_cons, posesOpt_some]
            rw [head_append_of (by intro hx; rw [hx] at hhead1; simp at hhead1)]
            rw [hhead1]
            rw [List.replicate_succ', List.append_assoc]
            rfl
          · intro f hf q idxs
            match f with
            | 0 =>
              have := node_sizeOf_pos ⟨e :: ES2, some m1 :: CS2⟩
              omega
            | f + 1 =>
              rw [leftDescend_enter (c := m1) (by simp)]
              rw [hld1 f (by omega) (0 :: q) (0 :: idxs)]
              simp [List.replicate_succ', List.append_assoc]

theorem endDescend_last {maxE : Nat} {h : Option Node} : ∀ (N : Nat) (n : Node),
    sizeOf n < N → Shape maxE n → ∀ p : List Nat, nodeAtO h p = some n →
    ∃ (rchain : List Nat) (m : Node) (iL : Nat) (eL : Int),
      (posesN n p).getLast? = some (rchain ++ p, iL, eL) ∧
      nodeAtO h (rchain ++ p) = some m ∧
      iL + 1 = m.elems.length ∧
      m.children[m.elems.length]? = none ∧
      (∀ (o1 o2 : List Nat) (ep : Option (List Nat)),
        incAscend h o1 o2 ep (rchain ++ p) ((iL + 1) :: (rchain ++ p)) =
          incAscend h o1 o2 ep p (n.elems.length :: p)) ∧
      (∀ f : Nat, sizeOf n ≤ f → ∀ q idxs : List Nat,
        endDescend f n q idxs = some (m, rchain ++ q, rchain ++ idxs)) := by
  intro N
  induction N with
  | zero =>
    intro n hn
    omega
  | succ N ih =>
    intro n hn hs p hp
    match n with
    | ⟨ES, CS⟩ =>
      obtain ⟨h1, h2, h3, h4, h5⟩ := shape_components hs
      by_cases hfw : CS.length = ES.length + 1
      · obtain ⟨m2, hm2⟩ := shape_full_width_last hs hfw
        have hm2s : Shape maxE m2 :=
          h5 (some m2) (List.mem_iff_getElem?.mpr ⟨ES.length, hm2⟩) m2 rfl
        have hm2sz : sizeOf m2 < sizeOf (Node.mk ES CS) :=
          sizeOf_child_lt_node (n := ⟨ES, CS⟩) (by simpa using hm2)
        have hres2 : nodeAtO h (ES.length :: p) = some m2 :=
          nodeAtO_child hp (by simpa using hm2)
        obtain ⟨rch, m, iL, eL, hlast2, hresm, hiL, hchm, hred2, hend2⟩ :=
          ih m2 (by omega) hm2s (ES.length :: p) hres2
        have he1 : (rch ++ [ES.length]) ++ p = rch ++ (ES.length :: p) := by
          rw [List.append_assoc]
          rfl
        refine ⟨rch ++ [ES.length], m, iL, eL, ?_, ?_, hiL, hchm, ?_, ?_⟩
        · rw [posesN_mk]
          have hclast : CS.getLast? = some (some m2) := by
            rw [List.getLast?_eq_getElem? CS, hfw]
            simpa using hm2
          have hchildne : posesOpt (some m2) ((0 + ES.length) :: p) ≠ [] := by
            simp only [Nat.zero_add, posesOpt_some]
            intro hx
            rw [hx] at hlast2
            simp at hlast2
          rw [posesSeq_last_child ES CS p 0 (some m2) hfw hclast hchildne]
          simp only [Nat.zero_add, posesOpt_some]
          rw [hlast2, he1]
        · rw [he1]
          exact hresm
        · intro o1 o2 ep
          rw [he1]
          rw [hred2 o1 o2 ep]
          rw [incAscend_pop hres2 rfl]
          simp only [Node.elems_mk]
        · intro f hf q idxs
          match f with
          | 0 =>
            have := node_sizeOf_pos ⟨ES, CS⟩
            omega
          | f + 1 =>
            rw [endDescend_enter (by simpa using hfw) (by simpa using hm2)]
            rw [hend2 f (by omega)]
            rw [List.append_assoc, List.append_assoc]
            rfl
      · have hle : CS.length ≤ ES.length := by omega
        have hESne : ES.length ≠ 0 := by
          intro hx
          exact h1 (List.length_eq_zero.mp hx)
        obtain ⟨eL, heL⟩ : ∃ eL, ES.getLast? = some eL :=
          ⟨ES.getLast h1, List.getLast?_eq_getLast ES h1⟩
        refine ⟨[], ⟨ES, CS⟩, ES.length - 1, eL, ?_, ?_, ?_, ?_, ?_, ?_⟩
        · rw [posesN_mk]
          rw [posesSeq_last_elem ES CS p 0 eL heL hle]
          simp
        · simpa using hp
        · simp only [Node.elems_mk]
          omega
        · simp only [Node.elems_mk, Node.children_mk]
          exact List.getElem?_eq_none (by omega)
        · intro o1 o2 ep
          simp only [List.nil_append, Node.elems_mk]
          have harith : ES.length - 1 + 1 = ES.length := by omega
          rw [harith]
        · intro f hf q idxs
          match f with
          | 0 =>
            have := node_sizeOf_pos ⟨ES, CS⟩
            omega
          | f + 1 =>
            rw [endDescend_stop (by simpa using hfw)]
            simp


theorem elem_step {h : Option Node} {ES : List Int} {CS : List (Option Node)}
    {p : List Nat} {j : Nat} {e e2 : Int}
    (hres : nodeAtO h p = some ⟨ES, CS⟩)
    (hc : CS[j + 1]? = none ∨ CS[j + 1]? = some none)
    (hlt : j + 1 < ES.length) :
    IncStep h (p, j, e) (p, j + 1, e2) := by
  refine ⟨0, fun f _ => ?_⟩
  rw [show canon (p, j, e) = ⟨some p, j :: p, none⟩ from rfl]
  rw [iterInc_ascend hres (by simp only [Node.children_mk]; exact hc)]
  rw [incAscend_stop hres (by simp only [Node.elems_mk]; omega)]
  rfl

theorem enter_step {maxE : Nat} {h : Option Node} {ES : List Int} {CS : List (Option Node)}
    {p : List Nat} {j : Nat} {e : Int} {m2 : Node}
    (hres : nodeAtO h p = some ⟨ES, CS⟩)
    (hc : CS[j + 1]? = some (some m2)) (hm2s : Shape maxE m2) :
    ∀ y : Pos, (posesN m2 ((j + 1) :: p)).head? = some y → IncStep h (p, j, e) y := by
  intro y hy
  have hres2 : nodeAtO h ((j + 1) :: p) = some m2 :=
    nodeAtO_child hres (by simp only [Node.children_mk]; exact hc)
  obtain ⟨k, e0, hhead, hld⟩ :=
    @leftDescend_first maxE h (sizeOf m2 + 1) m2 (by omega) hm2s ((j + 1) :: p) hres2
  rw [hy] at hhead
  have hyeq : y = (List.replicate k 0 ++ ((j + 1) :: p), 0, e0) := Option.some.inj hhead
  subst hyeq
  refine ⟨sizeOf m2, fun f hf => ?_⟩
  rw [show canon (p, j, e) = ⟨some p, j :: p, none⟩ from rfl]
  rw [iterInc_enter hres (by simp only [Node.children_mk]; exact hc)]
  rw [hld f hf ((j + 1) :: p) (0 :: (j + 1) :: p)]
  rw [show canon (List.replicate k 0 ++ ((j + 1) :: p), 0, e0) =
    ⟨some (List.replicate k 0 ++ ((j + 1) :: p)),
      0 :: (List.replicate k 0 ++ ((j + 1) :: p)), none⟩ from rfl]
  rw [Option.map_some']
  rw [rep_zero_cons]

theorem exit_step {maxE : Nat} {h : Option Node} {ES : List Int} {CS : List (Option Node)}
    {p : List Nat} {j : Nat} {e : Int} {m1 : Node}
    (hres : nodeAtO h p = some ⟨ES, CS⟩)
    (hc : CS[j]? = some (some m1)) (hm1s : Shape maxE m1)
    (hjlt : j < ES.length) :
    ∀ x : Pos, (posesN m1 (j :: p)).getLast? = some x → IncStep h x (p, j, e) := by
  intro x hx
  have hres1 : nodeAtO h (j :: p) = some m1 :=
    nodeAtO_child hres (by simp only [Node.children_mk]; exact hc)
  obtain ⟨rch, m, iL, eL, hlast, hresm, hiL, hchm, hred, hend⟩ :=
    @endDescend_last maxE h (sizeOf m1 + 1) m1 (by omega) hm1s (j :: p) hres1
  rw [hx] at hlast
  have hxeq : x = (rch ++ (j :: p), iL, eL) := Option.some.inj hlast
  subst hxeq
  refine ⟨0, fun f _ => ?_⟩
  rw [show canon (rch ++ (j :: p), iL, eL) =
    ⟨some (rch ++ (j :: p)), iL :: (rch ++ (j :: p)), none⟩ from rfl]
  rw [iterInc_ascend hresm (by rw [hiL]; exact Or.inl hchm)]
  rw [hred]
  rw [incAscend_pop hres1 rfl]
  rw [incAscend_stop hres (by simp only [Node.elems_mk]; omega)]
  rfl


theorem drop_nil_of_le {α : Type} {l : List α} {i : Nat} (h : l.length ≤ i) : l.drop i = [] :=
  List.eq_nil_of_length_eq_zero (by rw [List.length_drop]; omega)

theorem getElem_lt_of_some {α : Type} {l : List α} {i : Nat} {x : α}
    (h : l[i]? = some x) : i < l.length := by
  by_contra hcon
  rw [List.getElem?_eq_none (by omega)] at h
  exact Option.noConfusion h

theorem chain_seg {maxE : Nat} {h : Option Node} {ES : List Int} {CS : List (Option Node)}
    {p : List Nat} (hres : nodeAtO h p = some ⟨ES, CS⟩) (hs : Shape maxE ⟨ES, CS⟩)
    (hchild : ∀ (j : Nat) (c : Node), CS[j]? = some (some c) →
      List.Chain' (IncStep h) (posesN c (j :: p))) :
    ∀ (es : List Int) (cs : List (Option Node)) (i : Nat),
      es = ES.drop i → cs = CS.drop i →
      List.Chain' (IncStep h) (posesSeq es cs p i) := by
  have hcomp := shape_components hs
  intro es
  induction es with
  | nil =>
    intro cs i hes hcs
    match cs, hcs with
    | [], hcs => simp
    | [c], hcs =>
      obtain ⟨m2, hc2, hslot, hieq, hfull⟩ := drop_last_slot hs hes.symm hcs.symm
      subst hc2
      rw [posesSeq_nil_cons, posesOpt_some]
      exact hchild i m2 hslot
    | c :: c2 :: cs3, hcs =>
      exfalso
      have hlen1 : ES.length ≤ i := drop_length_le hes.symm
      have hlen2 : CS.length = i + 1 + (c2 :: cs3).length := drop_length_eq hcs.symm
      have hlen3 := hcomp.2.2.2.1
      simp only [List.length_cons] at hlen2
      omega
  | cons e es2 ih =>
    intro cs i hes hcs
    have hESi : ES[i]? = some e := drop_cons_getElem hes.symm
    have hESlen : i < ES.length := getElem_lt_of_some hESi
    have hes2 : ES.drop (i + 1) = es2 := drop_cons_succ hes.symm
    match cs, hcs with
    | [], hcs =>
      have hCSlen : CS.length ≤ i := drop_length_le hcs.symm
      rw [posesSeq_cons_nil, List.chain'_cons']
      constructor
      · intro y hy
        match es2, hes2 with
        | [], hes2 =>
          rw [posesSeq_nil_nil] at hy
          simp at hy
        | e2 :: es3, hes2 =>
          rw [posesSeq_cons_nil] at hy
          simp only [List.head?_cons, Option.mem_some_iff] at hy
          subst hy
          have hlenB : ES.length = i + 1 + 1 + es3.length := drop_length_eq hes2
          exact elem_step hres (Or.inl (List.getElem?_eq_none (by omega))) (by omega)
      · exact ih [] (i + 1) hes2.symm (drop_nil_of_le (by omega)).symm
    | c :: cs2, hcs =>
      have hCSi : CS[i]? = some c := drop_cons_getElem hcs.symm
      have hCS2 : CS.drop (i + 1) = cs2 := drop_cons_succ hcs.symm
      rw [posesSeq_cons_cons, List.chain'_append]
      refine ⟨?_, ?_, ?_⟩
      · match c, hCSi with
        | none, hCSi => simp
        | some m1, hCSi =>
          rw [posesOpt_some]
          exact hchild i m1 hCSi
      · rw [List.chain'_cons']
        constructor
        · intro y hy
          match es2, cs2, hes2, hCS2 with
          | [], [], hes2, hCS2 =>
            rw [posesSeq_nil_nil] at hy
            simp at hy
          | [], c2 :: cs3, hes2, hCS2 =>
            have hlenA : ES.length ≤ i + 1 := drop_length_le hes2
            have hlenB : CS.length = i + 1 + 1 + cs3.length := by
              have := drop_length_eq hCS2
              simp only [List.length_cons] at this
              omega
            have hlenC := hcomp.2.2.2.1
            have hcs3 : cs3 = [] := by
              apply List.eq_nil_of_length_eq_zero
              omega
            subst hcs3
            obtain ⟨m2, hc2, hslot, hieq, hfull⟩ := drop_last_slot hs hes2 hCS2
            subst hc2
            rw [posesSeq_nil_cons, posesOpt_some] at hy
            rw [Option.mem_def] at hy
            have hm2s : Shape maxE m2 :=
              hcomp.2.2.2.2 (some m2) (List.mem_iff_getElem?.mpr ⟨i + 1, hslot⟩) m2 rfl
            exact enter_step hres hslot hm2s y hy
          | e2 :: es3, [], hes2, hCS2 =>
            rw [posesSeq_cons_nil] at hy
            simp only [List.head?_cons, Option.mem_some_iff] at hy
            subst hy
            have hlenB : ES.length = i + 1 + 1 + es3.length := drop_length_eq hes2
            have hlenC : CS.length ≤ i + 1 := drop_length_le hCS2
            exact elem_step hres (Or.inl (List.getElem?_eq_none (by omega))) (by omega)
          | e2 :: es3, c2 :: cs3, hes2, hCS2 =>
            have hCSi1 : CS[i + 1]? = some c2 := drop_cons_getElem hCS2
            have hlenB : ES.length = i + 1 + 1 + es3.length := drop_length_eq hes2
            match c2, hCSi1 with
            | none, hCSi1 =>
              rw [posesSeq_cons_cons, posesOpt_none, List.nil_append] at hy
              simp only [List.head?_cons, Option.mem_some_iff] at hy
              subst hy
              exact elem_step hres (Or.inr hCSi1) (by omega)
            | some m2, hCSi1 =>
              rw [posesSeq_cons_cons, posesOpt_some] at hy
              have hm2s : Shape maxE m2 :=
                hcomp.2.2.2.2 (some m2) (List.mem_iff_getElem?.mpr ⟨i + 1, hCSi1⟩) m2 rfl
              have hres2 : nodeAtO h ((i + 1) :: p) = some m2 :=
                nodeAtO_child hres (by simp only [Node.children_mk]; exact hCSi1)
              obtain ⟨k, e0, hhead, _⟩ := @leftDescend_first maxE h (sizeOf m2 + 1)
                m2 (by omega) hm2s ((i + 1) :: p) hres2
              rw [head_append_of (by intro hx0; rw [hx0] at hhead; simp at hhead)] at hy
              rw [Option.mem_def] at hy
              exact enter_step hres hCSi1 hm2s y hy
        · exact ih cs2 (i + 1) hes2.symm hCS2.symm
      · intro x hx y hy
        match c, hCSi with
        | none, hCSi => simp at hx
        | some m1, hCSi =>
          rw [posesOpt_some] at hx
          rw [Option.mem_def] at hx
          have hy2 : y = (p, i, e) := by
            simp only [List.head?_cons, Option.mem_some_iff] at hy
            exact hy.symm
          subst hy2
          have hm1s : Shape maxE m1 :=
            hcomp.2.2.2.2 (some m1) (List.mem_iff_getElem?.mpr ⟨i, hCSi⟩) m1 rfl
          exact exit_step hres hCSi hm1s hESlen x hx


theorem poses_chain {maxE : Nat} {h : Option Node} : ∀ (N : Nat) (n : Node),
    sizeOf n < N → Shape maxE n → ∀ p : List Nat, nodeAtO h p = some n →
    List.Chain' (IncStep h) (posesN n p) := by
  intro N
  induction N with
  | zero =>
    intro n hn
    omega
  | succ N ih =>
    intro n hn hs p hp
    match n with
    | ⟨ES, CS⟩ =>
      have hcomp := shape_components hs
      rw [posesN_mk]
      refine chain_seg hp hs ?_ ES CS 0 rfl rfl
      intro j c hj
      have hcs : Shape maxE c :=
        hcomp.2.2.2.2 (some c) (List.mem_iff_getElem?.mpr ⟨j, hj⟩) c rfl
      have hsz : sizeOf c < sizeOf (Node.mk ES CS) :=
        sizeOf_child_lt_node (n := ⟨ES, CS⟩) (by simpa using hj)
      exact ih c (by omega) hcs (j :: p)
        (nodeAtO_child hp (by simp only [Node.children_mk]; exact hj))

theorem poses_resolve {maxE : Nat} {h : Option Node} : ∀ (N : Nat) (ES : List Int)
    (CS : List (Option Node)) (p : List Nat), sizeOf (Node.mk ES CS) < N →
    Shape maxE ⟨ES, CS⟩ → nodeAtO h p = some ⟨ES, CS⟩ →
    ∀ (es : List Int) (cs : List (Option Node)) (i : Nat), es = ES.drop i → cs = CS.drop i →
    ∀ u ∈ posesSeq es cs p i,
      ∃ m : Node, nodeAtO h u.1 = some m ∧ m.elems[u.2.1]? = some u.2.2 := by
  intro N
  induction N with
  | zero =>
    intro ES CS p hn
    omega
  | succ N ih =>
    intro ES CS p hn hs hp
    have hcomp := shape_components hs
    intro es
    induction es with
    | nil =>
      intro cs i hes hcs u hu
      match cs, hcs with
      | [], hcs => simp at hu
      | [c], hcs =>
        obtain ⟨m2, hc2, hslot, hieq, hfull⟩ := drop_last_slot hs hes.symm hcs.symm
        subst hc2
        rw [posesSeq_nil_cons, posesOpt_some] at hu
        have hm2s : Shape maxE m2 :=
          hcomp.2.2.2.2 (some m2) (List.mem_iff_getElem?.mpr ⟨i, hslot⟩) m2 rfl
        have hsz : sizeOf m2 < sizeOf (Node.mk ES CS) :=
          sizeOf_child_lt_node (n := ⟨ES, CS⟩) (by simpa using hslot)
        have hresc : nodeAtO h (i :: p) = some m2 :=
          nodeAtO_child hp (by simp only [Node.children_mk]; exact hslot)
        match m2, hm2s, hsz, hresc, hu with
        | ⟨ES2, CS2⟩, hm2s, hsz, hresc, hu =>
          rw [posesN_mk] at hu
          exact ih ES2 CS2 (i :: p) (by omega) hm2s hresc ES2 CS2 0 rfl rfl u hu
      | c :: c2 :: cs3, hcs =>
        exfalso
        have hlen1 : ES.length ≤ i := drop_length_le hes.symm
        have hlen2 : CS.length = i + 1 + (c2 :: cs3).length := drop_length_eq hcs.symm
        have hlen3 := hcomp.2.2.2.1
        simp only [List.length_cons] at hlen2
        omega
    | cons e es2 ihes =>
      intro cs i hes hcs u hu
      have hESi : ES[i]? = some e := drop_cons_getElem hes.symm
      have hes2 : ES.drop (i + 1) = es2 := drop_cons_succ hes.symm
      match cs, hcs with
      | [], hcs =>
        rw [posesSeq_cons_nil] at hu
        rcases List.mem_cons.mp hu with hu1 | hu2
        · subst hu1
          exact ⟨⟨ES, CS⟩, hp, by simpa using hESi⟩
        · exact ihes [] (i + 1) hes2.symm
            (drop_nil_of_le (by have := drop_length_le hcs.symm; omega)).symm u hu2
      | c :: cs2, hcs =>
        have hCSi : CS[i]? = some c := drop_cons_getElem hcs.symm
        have hCS2 : CS.drop (i + 1) = cs2 := drop_cons_succ hcs.symm
        rw [posesSeq_cons_cons] at hu
        rcases List.mem_append.mp hu with hu1 | hu2
        · match c, hCSi, hu1 with
          | none, hCSi, hu1 => simp at hu1
          | some m1, hCSi, hu1 =>
            rw [posesOpt_some] at hu1
            have hm1s : Shape maxE m1 :=
              hcomp.2.2.2.2 (some m1) (List.mem_iff_getElem?.mpr ⟨i, hCSi⟩) m1 rfl
            have hsz : sizeOf m1 < sizeOf (Node.mk ES CS) :=
              sizeOf_child_lt_node (n := ⟨ES, CS⟩) (by simpa using hCSi)
            have hresc : nodeAtO h (i :: p) = some m1 :=
              nodeAtO_child hp (by simp only [Node.children_mk]; exact hCSi)
            match m1, hm1s, hsz, hresc, hu1 with
            | ⟨ES2, CS2⟩, hm1s, hsz, hresc, hu1 =>
              rw [posesN_mk] at hu1
              exact ih ES2 CS2 (i :: p) (by omega) hm1s hresc ES2 CS2 0 rfl rfl u hu1
        · rcases List.mem_cons.mp hu2 with hu3 | hu4
          · subst hu3
            exact ⟨⟨ES, CS⟩, hp, by simpa using hESi⟩
          · exact ihes cs2 (i + 1) hes2.symm hCS2.symm u hu4

theorem poses_resolve_node {maxE : Nat} {h : Option Node} {n : Node} {p : List Nat}
    (hs : Shape maxE n) (hp : nodeAtO h p = some n) :
    ∀ u ∈ posesN n p,
      ∃ m : Node, nodeAtO h u.1 = some m ∧ m.elems[u.2.1]? = some u.2.2 := by
  match n with
  | ⟨ES, CS⟩ =>
    intro u hu
    rw [posesN_mk] at hu
    exact poses_resolve (sizeOf (Node.mk ES CS) + 1) ES CS p (by omega) hs hp
      ES CS 0 rfl rfl u hu


theorem beginDescend_eq_left : ∀ (f : Nat) (n : Node) (q idxs : List Nat),
    beginDescend f n q idxs = leftDescend f n q idxs := by
  intro f
  induction f with
  | zero =>
    intro n q idxs
    rfl
  | succ f ihf =>
    intro n q idxs
    rw [beginDescend, leftDescend]
    match hc : n.children.head? with
    | some (some c) => exact ihf c (0 :: q) (0 :: idxs)
    | some none => rfl
    | none => rfl

theorem chain_uniform {h : Option Node} : ∀ (P : List Pos), List.Chain' (IncStep h) P →
    ∃ f0 : Nat, List.Chain'
      (fun u v => ∀ f : Nat, f0 ≤ f → iterInc f h (canon u) = some (canon v)) P := by
  intro P
  induction P with
  | nil => exact fun _ => ⟨0, List.chain'_nil⟩
  | cons x P ihP =>
    intro hch
    rw [List.chain'_cons'] at hch
    obtain ⟨hglue, htail⟩ := hch
    obtain ⟨f0, hu⟩ := ihP htail
    match hP : P.head? with
    | none =>
      refine ⟨f0, List.chain'_cons'.mpr ⟨?_, hu⟩⟩
      intro y hy
      rw [hP] at hy
      simp at hy
    | some y =>
      obtain ⟨f1, hstep⟩ := hglue y (by rw [hP]; rfl)
      refine ⟨max f0 f1, List.chain'_cons'.mpr ⟨?_, ?_⟩⟩
      · intro z hz
        rw [hP] at hz
        rw [Option.mem_some_iff] at hz
        subst hz
        intro f hf
        exact hstep f (by omega)
      · refine List.Chain'.imp ?_ hu
        intro a b hab f hf
        exact hab f (by omega)

theorem walkFrom_end {h : Option Node} {endIt : BTreeIterator} :
    ∀ f : Nat, walkFrom h endIt f endIt = some [] := by
  intro f
  match f with
  | 0 => rw [walkFrom, if_pos rfl]
  | f + 1 => rw [walkFrom, if_pos rfl]

theorem walkFrom_chain {h : Option Node} {endIt : BTreeIterator} (hen : endIt.node = none)
    (f0 : Nat) :
    ∀ (P : List Pos) (u : Pos),
      List.Chain' (fun a b => ∀ f : Nat, f0 ≤ f → iterInc f h (canon a) = some (canon b))
        (u :: P) →
      (∀ v ∈ u :: P, iterDeref h (canon v) = some v.2.2) →
      (∀ w : Pos, (u :: P).getLast? = some w →
        ∀ f : Nat, f0 ≤ f → iterInc f h (canon w) = some endIt) →
      ∀ f : Nat, f0 + P.length + 1 ≤ f →
        walkFrom h endIt f (canon u) = some ((u :: P).map (fun v => v.2.2)) := by
  intro P
  induction P with
  | nil =>
    intro u hch hder hlast f hf
    match f, hf with
    | f + 1, hf =>
      rw [walkFrom]
      rw [if_neg (by intro hx; rw [← hx] at hen; simp [canon] at hen)]
      rw [hder u (by simp)]
      rw [hlast u (by simp) f (by omega)]
      dsimp only
      rw [walkFrom_end]
      rfl
  | cons v P ihP =>
    intro u hch hder hlast f hf
    match f, hf with
    | f + 1, hf =>
      rw [walkFrom]
      rw [if_neg (by intro hx; rw [← hx] at hen; simp [canon] at hen)]
      rw [hder u (by simp)]
      obtain ⟨hstep, htail⟩ := List.chain'_cons.mp hch
      rw [hstep f (by simp at hf; omega)]
      dsimp only
      rw [ihP v htail (fun w hw => hder w (List.mem_cons_of_mem u hw))
        (fun w hw => hlast w (by
          rw [show (u :: v :: P : List Pos) = [u] ++ (v :: P) from rfl,
            getLast_append_of (by simp)]
          exact hw))
        f (by simp at hf; omega)]
      rfl

theorem tree_walk {maxE : Nat} {root : Node} (hs : Shape maxE root) :
    ∃ (f2 : Nat) (b en : BTreeIterator),
      begin_ f2 (some root) = some b ∧ end_ f2 (some root) = some en ∧
      walkFrom (some root) en f2 b = some (nodeInorder root) := by
  have hres : nodeAtO (some root) [] = some root := rfl
  obtain ⟨k, e0, hhead, hld⟩ :=
    @leftDescend_first maxE (some root) (sizeOf root + 1) root (by omega) hs [] hres
  obtain ⟨rch, m, iL, eL, hlast, hresm, hiL, hchm, hred, hend⟩ :=
    @endDescend_last maxE (some root) (sizeOf root + 1) root (by omega) hs [] hres
  have hch := @poses_chain maxE (some root) (sizeOf root + 1) root (by omega) hs [] hres
  have hresv := poses_resolve_node hs hres
  simp only [List.append_nil] at hhead hlast hresm hred
  obtain ⟨f0, hchu⟩ := chain_uniform (posesN root []) hch
  match hP : posesN root [] with
  | [] =>
    rw [hP] at hhead
    simp at hhead
  | u0 :: P2 =>
    rw [hP] at hhead hlast hchu
    have hu0 : u0 = (List.replicate k 0, 0, e0) := by
      simp only [List.head?_cons, Option.some.injEq] at hhead
      exact hhead
    have hvals : (posesN root []).map (fun v => v.2.2) = nodeInorder root := by
      match root with
      | ⟨ES, CS⟩ =>
        rw [posesN_mk, nodeInorder_mk]
        exact poses_values (sizeOf CS + 1) CS ES [] 0 (by omega)
    set F := max f0 (sizeOf root) + P2.length + 1 with hF
    refine ⟨F, canon u0, ⟨none, iL :: rch, some rch⟩, ?_, ?_, ?_⟩
    · simp only [begin_]
      rw [beginDescend_eq_left, hld F (by omega) [] []]
      rw [Option.map_some']
      rw [hu0]
      simp [canon]
    · simp only [end_]
      rw [hend F (by omega) [] []]
      rw [Option.map_some']
      have hlm : m.elems.length - 1 = iL := by omega
      rw [hlm]
      simp
    · have hfinal : ∀ w : Pos, (u0 :: P2).getLast? = some w →
          ∀ f : Nat, max f0 (sizeOf root) ≤ f →
            iterInc f (some root) (canon w) = some ⟨none, iL :: rch, some rch⟩ := by
        intro w hw f hf
        rw [hw] at hlast
        have hweq : w = (rch, iL, eL) := Option.some.inj hlast
        subst hweq
        rw [show canon (rch, iL, eL) = ⟨some rch, iL :: rch, none⟩ from rfl]
        rw [iterInc_ascend hresm (by rw [hiL]; exact Or.inl hchm)]
        rw [hred rch (iL :: rch) none]
        rw [incAscend_exit hres rfl]
      have hders : ∀ v ∈ u0 :: P2, iterDeref (some root) (canon v) = some v.2.2 := by
        intro v hv
        obtain ⟨mv, hmv, hev⟩ := hresv v (by rw [hP]; exact hv)
        exact iterDeref_canon hmv hev
      have hchu2 : List.Chain'
          (fun a b => ∀ f : Nat, max f0 (sizeOf root) ≤ f →
            iterInc f (some root) (canon a) = some (canon b)) (u0 :: P2) := by
        refine List.Chain'.imp ?_ hchu
        intro a b hab f hf
        exact hab f (by omega)
      have hwres := @walkFrom_chain (some root)
        ⟨none, iL :: rch, some rch⟩ rfl (max f0 (sizeOf root))
        P2 u0 hchu2 hders hfinal F (by omega)
      rw [hwres]
      rw [← hvals, hP]

end BTreeVer

namespace BTreeVer

/-- C1: on every tree built from the empty tree by a sequence of inserts,
the `for (it = begin(); it != end(); ++it)` walk (for sufficient fuel)
succeeds and dereferences to a strictly increasing list whose members are
exactly the inserted elements. -/
theorem c1_traversal_sorted (maxE fuel : Nat) (xs : List Int) (t : BTree)
    (hb : buildTree maxE fuel xs = some t) :
    ∃ (f2 : Nat) (b en : BTreeIterator) (l : List Int),
      begin_ f2 t.head = some b ∧ end_ f2 t.head = some en ∧
      walkFrom t.head en f2 b = some l ∧
      List.Chain' (· < ·) l ∧ ∀ x : Int, x ∈ l ↔ x ∈ xs := by
  obtain ⟨hg, hmax, hmm⟩ := buildTree_spec hb
  match hhead : t.head with
  | none =>
    refine ⟨0, ⟨none, [], none⟩, ⟨none, [], none⟩, [], rfl, rfl, rfl, List.chain'_nil, ?_⟩
    intro x
    simp only [List.not_mem_nil, false_iff]
    intro hx
    have hmem := (hmm x).mpr hx
    simp [inorderT, hhead] at hmem
  | some root =>
    have hgr : GoodN t.maxNodeElems root := hg root hhead
    obtain ⟨f2, b, en, hb2, he2, hw⟩ := tree_walk hgr.1
    refine ⟨f2, b, en, nodeInorder root, hb2, he2, hw, hgr.2.chain', ?_⟩
    intro x
    rw [show nodeInorder root = inorderT t from by simp [inorderT, hhead]]
    exact hmm x

/-- C1 witness: the spec-scenario tree (capacity 2, inserts 3, 5, 1, 4,
6, 2). -/
theorem c1_witness :
    ∃ (f2 : Nat) (b en : BTreeIterator) (l : List Int),
      begin_ f2 sampleTree.head = some b ∧ end_ f2 sampleTree.head = some en ∧
      walkFrom sampleTree.head en f2 b = some l ∧
      List.Chain' (· < ·) l ∧ ∀ x : Int, x ∈ l ↔ x ∈ ([3, 5, 1, 4, 6, 2] : List Int) :=
  c1_traversal_sorted 2 20 [3, 5, 1, 4, 6, 2] sampleTree (by rfl)

end BTreeVer
